import Mathlib

/-!
Shallow embedding of the OpenCensus C++ stats manager
(`opencensus/stats/internal/stats_manager.h`).

The repository provides only the header: class declarations, member
signatures and their documentation comments.  The member-function bodies
live in `stats_manager.cc`, which is not part of the sources; every
operation body below is therefore modelled from the specification's
description of that operation, while the data model (classes, fields,
initial consumer count, return types) follows the header.

Modelling decisions:
* A `ViewInformation*` handle is modelled as a `Nat` identifier that is
  fresh for every constructed `ViewInformation` (the `nextId` counter of
  the manager state); this captures the "stable address" semantics.
* The external aggregated-data container (`ViewDataImpl`) is modelled as
  the log of recordings `(group key, value, timestamp)` it received; its
  numeric internals are out of scope for the spec.
* Recorded values are modelled as `Int` (the C++ code converts integral
  recordings to `double`; no arithmetic on values is needed here).
* Timestamps are modelled as `Nat`.
-/

set_option maxHeartbeats 1000000

namespace OpencensusStats

/-- Value kind of a measure: integral or floating. -/
inductive MeasureKind
  | intKind
  | doubleKind
deriving DecidableEq

/-- A measure: externally issued stable identity plus a value kind
(`opencensus::stats::Measure`). -/
structure Measure where
  id : Nat
  kind : MeasureKind
deriving DecidableEq

/-- Aggregation kind with its parameters: sum, count, distribution with
histogram bucket boundaries, or last value. -/
inductive Aggregation
  | sum
  | count
  | distribution (boundaries : List Int)
  | lastValue
deriving DecidableEq

/-- Aggregation window: cumulative, or a sliding interval with a duration
and a sub-bucket (interval) count. -/
inductive AggregationWindow
  | cumulative
  | interval (duration : Nat) (nIntervals : Nat)
deriving DecidableEq

/-- A view descriptor: display name, description, measure reference,
aggregation, window, and the ordered list of grouping columns
(`opencensus::stats::ViewDescriptor`). -/
structure ViewDescriptor where
  name : String
  description : String
  measure : Measure
  aggregation : Aggregation
  window : AggregationWindow
  columns : List String
deriving DecidableEq

/-- The aggregated-data container (`ViewDataImpl`), an external capability:
modelled as the log of `(group key, value, timestamp)` recordings handed
to it. -/
structure ViewDataImpl where
  recordings : List (List String × Int × Nat)
deriving DecidableEq

/-- `StatsManager::ViewInformation`: stores the identity-relevant parts of
a descriptor together with the live data and the consumer reference count.
`id` models the stable `ViewInformation*` handle address.  Per the header,
`num_consumers_` is an `int` initialised to 1 for the creating consumer. -/
structure ViewInformation where
  id : Nat
  descriptor : ViewDescriptor
  num_consumers : Int
  data : ViewDataImpl
deriving DecidableEq

/-- Structural identity of two view descriptors: equal measure reference,
aggregation kind and parameters, aggregation window, and grouping columns
in order; name and description are not compared. -/
def structurallyMatches (a b : ViewDescriptor) : Bool :=
  a.measure == b.measure && a.aggregation == b.aggregation &&
    a.window == b.window && a.columns == b.columns

/-- Modelled from the spec: the body of `ViewInformation::Matches` is in
`stats_manager.cc`, absent from the sources; the header documents it as
"true if this ViewInformation can be used to provide data for 'descriptor'
(i.e. shares measure, aggregation, aggregation window, and columns; this
does not compare view name and description)". -/
def ViewInformation.Matches (v : ViewInformation) (d : ViewDescriptor) : Bool :=
  structurallyMatches v.descriptor d

/-- The stored descriptor, as exposed by `ViewInformation::view_descriptor()`. -/
def ViewInformation.view_descriptor (v : ViewInformation) : ViewDescriptor :=
  v.descriptor

/-- Modelled from the spec: body of `ViewInformation::AddConsumer`
(in `stats_manager.cc`, absent from the sources): increments the consumer
count. -/
def ViewInformation.addConsumer (v : ViewInformation) : ViewInformation :=
  { v with num_consumers := v.num_consumers + 1 }

/-- Modelled from the spec: body of `ViewInformation::RemoveConsumer`
(in `stats_manager.cc`, absent from the sources): decrements the consumer
count and returns the resulting count. -/
def ViewInformation.removeConsumer (v : ViewInformation) : ViewInformation × Int :=
  ({ v with num_consumers := v.num_consumers - 1 }, v.num_consumers - 1)

/-- Lookup of a tag key in the tag context (first pair whose key matches). -/
def tagLookup (tags : List (String × String)) (key : String) : Option String :=
  match tags with
  | [] => none
  | t :: rest => if t.1 == key then some t.2 else tagLookup rest key

/-- Modelled from the spec: the grouping key built by `ViewInformation::Record`
scans the tag context once per configured grouping column, in definition
order; a column absent from the context contributes the distinguished
empty value. -/
def groupKey (columns : List String) (tags : List (String × String)) : List String :=
  columns.map (fun c => (tagLookup tags c).getD "")

/-- Modelled from the spec: body of `ViewInformation::Record` (in
`stats_manager.cc`, absent from the sources): builds the grouping key from
the tag context and hands `(key, value, now)` to the aggregated-data
container. -/
def ViewInformation.record (v : ViewInformation) (value : Int)
    (tags : List (String × String)) (now : Nat) : ViewInformation :=
  { v with data := ⟨(groupKey v.descriptor.columns tags, value, now) :: v.data.recordings⟩ }

/-- A freshly constructed `ViewInformation` for a descriptor: consumer
count starts at 1 (the creating caller), empty data. -/
def newViewInformation (fid : Nat) (d : ViewDescriptor) : ViewInformation :=
  ⟨fid, d, 1, ⟨[]⟩⟩

/-- `StatsManager::MeasureInformation`: owns all `ViewInformation` objects
for one measure. -/
structure MeasureInformation where
  views : List ViewInformation
deriving DecidableEq

/-- Modelled from the spec: body of `MeasureInformation::AddConsumer` (in
`stats_manager.cc`, absent from the sources): linear scan for the first
structurally matching view; on hit, increments its count and returns its
handle; on miss, constructs a new view with fresh handle `fid`, appends
it, and returns its handle. -/
def addConsumerViews (views : List ViewInformation) (d : ViewDescriptor) (fid : Nat) :
    Nat × List ViewInformation :=
  match views with
  | [] => (fid, [newViewInformation fid d])
  | v :: rest =>
    if v.Matches d then (v.id, v.addConsumer :: rest)
    else ((addConsumerViews rest d fid).1, v :: (addConsumerViews rest d fid).2)

/-- Modelled from the spec: body of `MeasureInformation::Record` (in
`stats_manager.cc`, absent from the sources): forwards `(value, tags, now)`
to every owned view. -/
def MeasureInformation.record (mi : MeasureInformation) (value : Int)
    (tags : List (String × String)) (now : Nat) : MeasureInformation :=
  ⟨mi.views.map (fun v => v.record value tags now)⟩

/-- Modelled from the spec: `StatsManager::RemoveConsumer` decrements the
handle's count and, if the resulting count is zero, unlinks the view from
its measure's collection (`MeasureInformation::RemoveView`).  This helper
performs both steps on a view list, for the first view carrying handle
`h`. -/
def removeConsumerViews (views : List ViewInformation) (h : Nat) : List ViewInformation :=
  match views with
  | [] => []
  | v :: rest =>
    if v.id == h then
      if (v.removeConsumer).2 == 0 then rest else (v.removeConsumer).1 :: rest
    else v :: removeConsumerViews rest h

/-- The manager state: the mapping from measure identity to its
`MeasureInformation` (the `measures_` vector together with the external
measure registry's identity mapping), plus the fresh-handle counter that
models heap-address freshness. -/
structure StatsManager where
  measures : List (Measure × MeasureInformation)
  nextId : Nat
deriving DecidableEq

/-- Whether a measure has been registered with the manager. -/
def StatsManager.registered (s : StatsManager) (m : Measure) : Bool :=
  s.measures.any (fun p => p.1 == m)

/-- Modelled from the spec: body of `StatsManager::AddMeasure` (in
`stats_manager.cc`, absent from the sources): idempotently ensures an
entry exists for this measure identity; a second call for the same
measure is a no-op. -/
def StatsManager.AddMeasure (s : StatsManager) (m : Measure) : StatsManager :=
  if s.registered m then s
  else { s with measures := s.measures ++ [(m, ⟨[]⟩)] }

/-- Find-or-create on the measure list: delegates to `addConsumerViews`
inside the entry registered for the descriptor's measure; returns `none`
when the measure is unregistered. -/
def addConsumerMeasures (ms : List (Measure × MeasureInformation)) (d : ViewDescriptor)
    (fid : Nat) : Option Nat × List (Measure × MeasureInformation) :=
  match ms with
  | [] => (none, [])
  | (m, mi) :: rest =>
    if m == d.measure then
      (some (addConsumerViews mi.views d fid).1, (m, ⟨(addConsumerViews mi.views d fid).2⟩) :: rest)
    else
      ((addConsumerMeasures rest d fid).1, (m, mi) :: (addConsumerMeasures rest d fid).2)

/-- Modelled from the spec: body of `StatsManager::AddConsumer` (in
`stats_manager.cc`, absent from the sources): returns a handle to a view
structurally matching the descriptor inside the descriptor's measure
entry, creating one if none exists. -/
def StatsManager.AddConsumer (s : StatsManager) (d : ViewDescriptor) :
    Option Nat × StatsManager :=
  ((addConsumerMeasures s.measures d s.nextId).1,
    ⟨(addConsumerMeasures s.measures d s.nextId).2, s.nextId + 1⟩)

/-- Decrement-and-maybe-unlink on the measure list: applied to the first
measure entry whose collection holds the handle. -/
def removeConsumerMeasures (ms : List (Measure × MeasureInformation)) (h : Nat) :
    List (Measure × MeasureInformation) :=
  match ms with
  | [] => []
  | (m, mi) :: rest =>
    if mi.views.any (fun v => v.id == h) then
      (m, ⟨removeConsumerViews mi.views h⟩) :: rest
    else
      (m, mi) :: removeConsumerMeasures rest h

/-- Modelled from the spec: body of `StatsManager::RemoveConsumer` (in
`stats_manager.cc`, absent from the sources): removes a consumer from the
view referenced by the handle, and unlinks and destroys that view if that
was the last consumer. -/
def StatsManager.RemoveConsumer (s : StatsManager) (h : Nat) : StatsManager :=
  { s with measures := removeConsumerMeasures s.measures h }

/-- One `(measure, value)` pair of a `Record` call. -/
structure Measurement where
  measure : Measure
  value : Int
deriving DecidableEq

/-- Record one value against the entry registered for `meas` (no-op when
the measure is unregistered). -/
def recordMeasures (ms : List (Measure × MeasureInformation)) (meas : Measure)
    (value : Int) (tags : List (String × String)) (now : Nat) :
    List (Measure × MeasureInformation) :=
  match ms with
  | [] => []
  | (m, mi) :: rest =>
    if m == meas then (m, mi.record value tags now) :: rest
    else (m, mi) :: recordMeasures rest meas value tags now

/-- Modelled from the spec: body of `StatsManager::Record` (in
`stats_manager.cc`, absent from the sources): for each measurement,
forwards its value with the shared tag context and timestamp to the
measurement's measure entry; a measurement against an unregistered
measure is a silent no-op. -/
def StatsManager.Record (s : StatsManager) (measurements : List Measurement)
    (tags : List (String × String)) (now : Nat) : StatsManager :=
  { s with
    measures := measurements.foldl
      (fun acc mt => recordMeasures acc mt.measure mt.value tags now) s.measures }

/-- All views stored in a list of measure entries, in order. -/
def flatViews (ms : List (Measure × MeasureInformation)) : List ViewInformation :=
  (ms.map (fun p => p.2.views)).flatten

/-- The handles of a view list. -/
def idsOf (views : List ViewInformation) : List Nat :=
  views.map (fun v => v.id)

/-- All live views of the manager, in measure order. -/
def allViews (s : StatsManager) : List ViewInformation :=
  flatViews s.measures

/-- Look up the live view carrying a handle (the model of dereferencing a
`ViewInformation*`). -/
def StatsManager.findView (s : StatsManager) (h : Nat) : Option ViewInformation :=
  (allViews s).find? (fun v => v.id == h)

/-- Total number of live views. -/
def totalViews (s : StatsManager) : Nat :=
  (allViews s).length

/-- Well-formedness of the handle model: handles are pairwise distinct
(distinct heap objects have distinct addresses) and below the freshness
counter. -/
def idsWF (s : StatsManager) : Prop :=
  (idsOf (allViews s)).Nodup ∧ ∀ v ∈ allViews s, v.id < s.nextId

/-- The structural part of a view: handle, stored descriptor, consumer
count — everything except the aggregated data. -/
def ViewInformation.shape (v : ViewInformation) : Nat × ViewDescriptor × Int :=
  (v.id, v.descriptor, v.num_consumers)

/-- The structural part of the manager state: registered measures, and for
each one its views' handles, descriptors and consumer counts (everything
except the aggregated-data containers). -/
def StatsManager.shape (s : StatsManager) :
    List (Measure × List (Nat × ViewDescriptor × Int)) × Nat :=
  (s.measures.map (fun p => (p.1, p.2.views.map ViewInformation.shape)), s.nextId)

/-- `k` successive `AddConsumer` calls for one descriptor. -/
def iterAdd (s : StatsManager) (d : ViewDescriptor) : Nat → StatsManager
  | 0 => s
  | k + 1 => ((iterAdd s d k).AddConsumer d).2

/-- `k` successive `RemoveConsumer` calls for one handle. -/
def iterRemove (s : StatsManager) (h : Nat) : Nat → StatsManager
  | 0 => s
  | k + 1 => (iterRemove s h k).RemoveConsumer h

/-- Pairwise structural distinctness of a view list: no two of its views
have structurally matching definitions. -/
def viewsDistinct (views : List ViewInformation) : Prop :=
  views.Pairwise (fun a b => structurallyMatches a.descriptor b.descriptor = false)

/-- Every measure entry of the manager holds pairwise structurally
distinct views. -/
def managerDistinct (s : StatsManager) : Prop :=
  ∀ p ∈ s.measures, viewsDistinct p.2.views

/-- The manager's public operations, for reachability statements. -/
inductive Op
  | addMeasure (m : Measure)
  | addConsumer (d : ViewDescriptor)
  | removeConsumer (h : Nat)
  | record (measurements : List Measurement) (tags : List (String × String)) (now : Nat)

/-- Apply one public operation to the manager state. -/
def applyOp (s : StatsManager) : Op → StatsManager
  | .addMeasure m => s.AddMeasure m
  | .addConsumer d => (s.AddConsumer d).2
  | .removeConsumer h => s.RemoveConsumer h
  | .record measurements tags now => s.Record measurements tags now

/-- The initial (empty) manager state. -/
def initialState : StatsManager := ⟨[], 0⟩

/-- Run a sequence of public operations from the initial state. -/
def runOps (ops : List Op) : StatsManager := ops.foldl applyOp initialState

/-- A state is reachable when some operation sequence produces it. -/
def Reachable (s : StatsManager) : Prop := ∃ ops, s = runOps ops

instance (s : StatsManager) : Decidable (idsWF s) := by
  unfold idsWF; infer_instance

/-! ### Basic lemmas about structural matching -/

theorem structurallyMatches_iff (a b : ViewDescriptor) :
    structurallyMatches a b = true ↔
      a.measure = b.measure ∧ a.aggregation = b.aggregation ∧
        a.window = b.window ∧ a.columns = b.columns := by
  simp [structurallyMatches, and_assoc]

theorem structurallyMatches_refl (d : ViewDescriptor) :
    structurallyMatches d d = true := by
  simp [structurallyMatches]

theorem structurallyMatches_comm (a b : ViewDescriptor) :
    structurallyMatches a b = structurallyMatches b a := by
  by_cases h : structurallyMatches a b = true
  · rcases (structurallyMatches_iff a b).1 h with ⟨h1, h2, h3, h4⟩
    rw [h, Eq.comm]
    exact (structurallyMatches_iff b a).2 ⟨h1.symm, h2.symm, h3.symm, h4.symm⟩
  · rw [Bool.not_eq_true] at h
    rw [h]
    rcases hba : structurallyMatches b a with _ | _
    · rfl
    · rcases (structurallyMatches_iff b a).1 hba with ⟨h1, h2, h3, h4⟩
      have : structurallyMatches a b = true :=
        (structurallyMatches_iff a b).2 ⟨h1.symm, h2.symm, h3.symm, h4.symm⟩
      rw [this] at h; exact absurd h (by simp)

theorem Matches_congr (v : ViewInformation) {d₁ d₂ : ViewDescriptor}
    (h : structurallyMatches d₁ d₂ = true) :
    v.Matches d₂ = v.Matches d₁ := by
  rcases (structurallyMatches_iff d₁ d₂).1 h with ⟨h1, h2, h3, h4⟩
  unfold ViewInformation.Matches structurallyMatches
  rw [← h1, ← h2, ← h3, ← h4]

/-- C4: `Matches(definition)` returns true iff the measure references are
equal, the aggregation kind and its parameters are equal, the window is
equal, and the grouping-column lists are equal element-wise in order; the
definition's name and description never influence the result. -/
theorem claimC4_matches_characterisation (v : ViewInformation) (d : ViewDescriptor) :
    (v.Matches d = true ↔
      v.descriptor.measure = d.measure ∧ v.descriptor.aggregation = d.aggregation ∧
        v.descriptor.window = d.window ∧ v.descriptor.columns = d.columns) ∧
    ∀ nm ds, v.Matches { d with name := nm, description := ds } = v.Matches d := by
  constructor
  · exact structurallyMatches_iff v.descriptor d
  · intro nm ds
    rfl

/-- C7: `AddMeasure` is idempotent: a second call with the same measure
leaves the manager state identical to the state after the first call. -/
theorem claimC7_addMeasure_idempotent (s : StatsManager) (m : Measure) :
    (s.AddMeasure m).AddMeasure m = s.AddMeasure m := by
  have hreg : (s.AddMeasure m).registered m = true := by
    unfold StatsManager.AddMeasure
    by_cases h : s.registered m = true
    · simp [h]
    · rw [Bool.not_eq_true] at h
      unfold StatsManager.registered at h ⊢
      rw [if_neg (by simp [h])]
      simp
  rw [StatsManager.AddMeasure, if_pos hreg]

/-! ### Recording: no-op on unregistered measures, structural frame -/

theorem recordMeasures_of_unregistered (meas : Measure) (value : Int)
    (tags : List (String × String)) (now : Nat) :
    ∀ ms : List (Measure × MeasureInformation),
      (ms.any fun p => p.1 == meas) = false →
      recordMeasures ms meas value tags now = ms := by
  intro ms
  induction ms with
  | nil => intro _; rfl
  | cons p rest ih =>
    intro h
    simp only [List.any_cons, Bool.or_eq_false_iff] at h
    obtain ⟨p1, p2⟩ := p
    rw [recordMeasures, if_neg (by simp_all), ih h.2]

theorem recordMeasures_shape (meas : Measure) (value : Int)
    (tags : List (String × String)) (now : Nat) :
    ∀ ms : List (Measure × MeasureInformation),
      (recordMeasures ms meas value tags now).map
          (fun p => (p.1, p.2.views.map ViewInformation.shape)) =
        ms.map (fun p => (p.1, p.2.views.map ViewInformation.shape)) := by
  intro ms
  induction ms with
  | nil => rfl
  | cons p rest ih =>
    obtain ⟨p1, p2⟩ := p
    by_cases h : (p1 == meas) = true
    · rw [recordMeasures, if_pos h]
      simp only [List.map_cons, ih]
      simp [MeasureInformation.record, ViewInformation.shape, ViewInformation.record,
        List.map_map, Function.comp]
    · rw [recordMeasures, if_neg h]
      simp only [List.map_cons, ih]

theorem foldl_record_shape (tags : List (String × String)) (now : Nat) :
    ∀ (measurements : List Measurement) (ms : List (Measure × MeasureInformation)),
      ((measurements.foldl
          (fun acc mt => recordMeasures acc mt.measure mt.value tags now) ms).map
        (fun p => (p.1, p.2.views.map ViewInformation.shape))) =
      ms.map (fun p => (p.1, p.2.views.map ViewInformation.shape)) := by
  intro measurements
  induction measurements with
  | nil => intro ms; rfl
  | cons mt rest ih =>
    intro ms
    rw [List.foldl_cons, ih, recordMeasures_shape]

theorem recordMeasures_mem_of_ne (meas : Measure) (value : Int)
    (tags : List (String × String)) (now : Nat) (m : Measure) (mi : MeasureInformation)
    (hne : m ≠ meas) :
    ∀ ms : List (Measure × MeasureInformation),
      (m, mi) ∈ ms → (m, mi) ∈ recordMeasures ms meas value tags now := by
  intro ms
  induction ms with
  | nil => intro h; exact absurd h (by simp)
  | cons p rest ih =>
    intro hmem
    obtain ⟨p1, p2⟩ := p
    rcases List.mem_cons.1 hmem with hhead | htail
    · have hp1 : p1 = m := by
        have := congrArg Prod.fst hhead.symm
        simpa using this
      have hp2 : p2 = mi := by
        have := congrArg Prod.snd hhead.symm
        simpa using this
      subst hp1; subst hp2
      rw [recordMeasures, if_neg (by simp [hne])]
      exact List.mem_cons_self _ _
    · by_cases h : (p1 == meas) = true
      · rw [recordMeasures, if_pos h]
        exact List.mem_cons_of_mem _ htail
      · rw [recordMeasures, if_neg h]
        exact List.mem_cons_of_mem _ (ih htail)

theorem foldl_record_mem_of_ne (tags : List (String × String)) (now : Nat)
    (m : Measure) (mi : MeasureInformation) :
    ∀ (measurements : List Measurement) (ms : List (Measure × MeasureInformation)),
      (m, mi) ∈ ms → (∀ mt ∈ measurements, mt.measure ≠ m) →
      (m, mi) ∈ measurements.foldl
        (fun acc mt => recordMeasures acc mt.measure mt.value tags now) ms := by
  intro measurements
  induction measurements with
  | nil => intro ms h _; exact h
  | cons mt rest ih =>
    intro ms hmem hall
    rw [List.foldl_cons]
    refine ih _ ?_ (fun u hu => hall u (List.mem_cons_of_mem _ hu))
    exact recordMeasures_mem_of_ne mt.measure mt.value tags now m mi
      (fun he => hall mt (List.mem_cons_self _ _) (he ▸ rfl)) ms hmem

/-- C6: a `Record` call whose measurement references an unregistered
measure is a silent no-op: it is a total function (no error) and leaves
the entire manager state unchanged. -/
theorem claimC6_record_unregistered_noop (s : StatsManager) (mt : Measurement)
    (tags : List (String × String)) (now : Nat)
    (h : s.registered mt.measure = false) :
    s.Record [mt] tags now = s := by
  unfold StatsManager.Record
  rw [List.foldl_cons, List.foldl_nil,
    recordMeasures_of_unregistered mt.measure mt.value tags now s.measures h]

/-- C6 witness: recording against the unregistered measure 1 in a state
that registered only measure 0 leaves the state unchanged. -/
theorem claimC6_record_unregistered_noop_witness :
    StatsManager.Record ⟨[(⟨0, .intKind⟩, ⟨[]⟩)], 0⟩ [⟨⟨1, .doubleKind⟩, 3⟩] [] 5 =
      (⟨[(⟨0, .intKind⟩, ⟨[]⟩)], 0⟩ : StatsManager) :=
  claimC6_record_unregistered_noop ⟨[(⟨0, .intKind⟩, ⟨[]⟩)], 0⟩ ⟨⟨1, .doubleKind⟩, 3⟩ [] 5
    (by decide)

/-- C10: `Record` never performs structural mutation: the registered
measures, every measure's list of live views, and every view's handle,
descriptor and consumer count are identical before and after any `Record`
call (registered or unregistered measures alike); a measure entry named by
no measurement of the call is entirely unchanged, data included. -/
theorem claimC10_record_structural_frame (s : StatsManager)
    (measurements : List Measurement) (tags : List (String × String)) (now : Nat) :
    (s.Record measurements tags now).shape = s.shape ∧
    ∀ m mi, (m, mi) ∈ s.measures → (∀ mt ∈ measurements, mt.measure ≠ m) →
      (m, mi) ∈ (s.Record measurements tags now).measures := by
  constructor
  · unfold StatsManager.Record StatsManager.shape
    simp only
    rw [foldl_record_shape]
  · intro m mi hmem hall
    unfold StatsManager.Record
    exact foldl_record_mem_of_ne tags now m mi measurements s.measures hmem hall

/-- C10 witness: recording against measure 0 preserves the structural
shape and leaves the entry of the unrecorded measure 1 unchanged. -/
theorem claimC10_record_structural_frame_witness :
    (StatsManager.Record ⟨[(⟨0, .intKind⟩, ⟨[]⟩), (⟨1, .doubleKind⟩, ⟨[]⟩)], 0⟩
        [⟨⟨0, .intKind⟩, 3⟩] [] 5).shape =
      (⟨[(⟨0, .intKind⟩, ⟨[]⟩), (⟨1, .doubleKind⟩, ⟨[]⟩)], 0⟩ : StatsManager).shape ∧
    (⟨1, .doubleKind⟩, (⟨[]⟩ : MeasureInformation)) ∈
      (StatsManager.Record ⟨[(⟨0, .intKind⟩, ⟨[]⟩), (⟨1, .doubleKind⟩, ⟨[]⟩)], 0⟩
        [⟨⟨0, .intKind⟩, 3⟩] [] 5).measures := by
  have h := claimC10_record_structural_frame
    ⟨[(⟨0, .intKind⟩, ⟨[]⟩), (⟨1, .doubleKind⟩, ⟨[]⟩)], 0⟩ [⟨⟨0, .intKind⟩, 3⟩] [] 5
  exact ⟨h.1, h.2 ⟨1, .doubleKind⟩ ⟨[]⟩ (by simp) (by decide)⟩

/-! ### Grouping keys -/

theorem map_eq_map_of_mem {α β : Type} {f g : α → β} :
    ∀ {l : List α}, l.map f = l.map g → ∀ x ∈ l, f x = g x := by
  intro l
  induction l with
  | nil => intro _ x hx; exact absurd hx (by simp)
  | cons a rest ih =>
    intro h x hx
    simp only [List.map_cons, List.cons.injEq] at h
    rcases List.mem_cons.1 hx with rfl | hx
    · exact h.1
    · exact ih h.2 x hx

/-- C8: the grouping key is built by looking up each configured grouping
column in the tag context in definition order; a configured column absent
from the context contributes the distinguished empty value, and the
recording lands (without error) in its own group, distinct from the group
of any recording supplying a non-empty value for that column. -/
theorem claimC8_absent_key_distinct_group (v : ViewInformation) (c : String)
    (tags₁ tags₂ : List (String × String)) (value : Int) (now : Nat) (w : String)
    (hc : c ∈ v.descriptor.columns)
    (h₁ : tagLookup tags₁ c = none)
    (h₂ : tagLookup tags₂ c = some w) (hw : w ≠ "") :
    (v.record value tags₁ now).data.recordings =
      (groupKey v.descriptor.columns tags₁, value, now) :: v.data.recordings ∧
    groupKey v.descriptor.columns tags₁ ≠ groupKey v.descriptor.columns tags₂ := by
  refine ⟨rfl, ?_⟩
  intro heq
  unfold groupKey at heq
  have hpt := map_eq_map_of_mem heq c hc
  rw [h₁, h₂] at hpt
  simp only [Option.getD_some, Option.getD_none] at hpt
  exact hw hpt.symm

/-- C8 witness: a view grouping by column "k", one recording without the
tag and one with value "x" for it, land in distinct groups. -/
theorem claimC8_absent_key_distinct_group_witness :
    ((ViewInformation.record ⟨0, ⟨"v", "d", ⟨0, .intKind⟩, .sum, .cumulative, ["k"]⟩, 1, ⟨[]⟩⟩
        7 [] 5).data.recordings =
      (groupKey ["k"] [], 7, 5) :: [] ∧
    groupKey ["k"] [] ≠ groupKey ["k"] [("k", "x")]) :=
  claimC8_absent_key_distinct_group
    ⟨0, ⟨"v", "d", ⟨0, .intKind⟩, .sum, .cumulative, ["k"]⟩, 1, ⟨[]⟩⟩
    "k" [] [("k", "x")] 7 5 "x" (by simp) rfl rfl (by simp)

/-! ### The duplicate-free invariant on view collections -/

theorem mem_addConsumerViews (d : ViewDescriptor) (fid : Nat) :
    ∀ views, ∀ w ∈ (addConsumerViews views d fid).2,
      (∃ u ∈ views, u.descriptor = w.descriptor) ∨ w.descriptor = d := by
  intro views
  induction views with
  | nil =>
    intro w hw
    simp only [addConsumerViews, List.mem_singleton] at hw
    right; rw [hw]; rfl
  | cons v rest ih =>
    intro w hw
    by_cases hm : v.Matches d = true
    · rw [addConsumerViews, if_pos hm] at hw
      rcases List.mem_cons.1 hw with rfl | htail
      · exact Or.inl ⟨v, List.mem_cons_self _ _, rfl⟩
      · exact Or.inl ⟨w, List.mem_cons_of_mem _ htail, rfl⟩
    · rw [addConsumerViews, if_neg hm] at hw
      rcases List.mem_cons.1 hw with rfl | htail
      · exact Or.inl ⟨w, List.mem_cons_self _ _, rfl⟩
      · rcases ih w htail with ⟨u, hu, hud⟩ | hd
        · exact Or.inl ⟨u, List.mem_cons_of_mem _ hu, hud⟩
        · exact Or.inr hd

theorem pairwise_addConsumerViews (d : ViewDescriptor) (fid : Nat) :
    ∀ views, viewsDistinct views → viewsDistinct (addConsumerViews views d fid).2 := by
  intro views
  induction views with
  | nil => intro _; simp [addConsumerViews, viewsDistinct]
  | cons v rest ih =>
    intro hp
    rcases (List.pairwise_cons.1 hp) with ⟨hv, hrest⟩
    by_cases hm : v.Matches d = true
    · rw [viewsDistinct, addConsumerViews, if_pos hm]
      exact List.pairwise_cons.2 ⟨fun u hu => hv u hu, hrest⟩
    · rw [viewsDistinct, addConsumerViews, if_neg hm]
      refine List.pairwise_cons.2 ⟨?_, ih hrest⟩
      intro w hw
      rcases mem_addConsumerViews d fid rest w hw with ⟨u, hu, hud⟩ | hd
      · rw [← hud]; exact hv u hu
      · rw [hd]
        exact Bool.not_eq_true _ ▸ hm

theorem mem_removeConsumerViews (h : Nat) :
    ∀ views, ∀ w ∈ removeConsumerViews views h,
      ∃ u ∈ views, u.descriptor = w.descriptor := by
  intro views
  induction views with
  | nil => intro w hw; exact absurd hw (by simp [removeConsumerViews])
  | cons v rest ih =>
    intro w hw
    by_cases hid : (v.id == h) = true
    · rw [removeConsumerViews, if_pos hid] at hw
      by_cases hz : ((v.removeConsumer).2 == 0) = true
      · rw [if_pos hz] at hw
        exact ⟨w, List.mem_cons_of_mem _ hw, rfl⟩
      · rw [if_neg hz] at hw
        rcases List.mem_cons.1 hw with rfl | htail
        · exact ⟨v, List.mem_cons_self _ _, rfl⟩
        · exact ⟨w, List.mem_cons_of_mem _ htail, rfl⟩
    · rw [removeConsumerViews, if_neg hid] at hw
      rcases List.mem_cons.1 hw with rfl | htail
      · exact ⟨w, List.mem_cons_self _ _, rfl⟩
      · rcases ih w htail with ⟨u, hu, hud⟩
        exact ⟨u, List.mem_cons_of_mem _ hu, hud⟩

theorem pairwise_removeConsumerViews (h : Nat) :
    ∀ views, viewsDistinct views → viewsDistinct (removeConsumerViews views h) := by
  intro views
  induction views with
  | nil => intro _; simp [removeConsumerViews, viewsDistinct]
  | cons v rest ih =>
    intro hp
    rcases (List.pairwise_cons.1 hp) with ⟨hv, hrest⟩
    by_cases hid : (v.id == h) = true
    · rw [viewsDistinct, removeConsumerViews, if_pos hid]
      by_cases hz : ((v.removeConsumer).2 == 0) = true
      · rw [if_pos hz]; exact hrest
      · rw [if_neg hz]
        exact List.pairwise_cons.2 ⟨fun u hu => hv u hu, hrest⟩
    · rw [viewsDistinct, removeConsumerViews, if_neg hid]
      refine List.pairwise_cons.2 ⟨?_, ih hrest⟩
      intro w hw
      rcases mem_removeConsumerViews h rest w hw with ⟨u, hu, hud⟩
      rw [← hud]; exact hv u hu

theorem pairwise_recordViews (value : Int) (tags : List (String × String)) (now : Nat)
    (views : List ViewInformation) (hp : viewsDistinct views) :
    viewsDistinct (views.map (fun v => v.record value tags now)) := by
  unfold viewsDistinct at hp ⊢
  rw [List.pairwise_map]
  exact hp

theorem managerDistinct_applyOp (s : StatsManager) (op : Op)
    (hs : managerDistinct s) : managerDistinct (applyOp s op) := by
  cases op with
  | addMeasure m =>
    intro p hp
    have hp : p ∈ (s.AddMeasure m).measures := hp
    unfold StatsManager.AddMeasure at hp
    by_cases hr : s.registered m = true
    · rw [if_pos hr] at hp; exact hs p hp
    · rw [if_neg hr] at hp
      simp only [List.mem_append, List.mem_singleton] at hp
      rcases hp with hp | hp
      · exact hs p hp
      · rw [hp]; exact List.Pairwise.nil
  | addConsumer d =>
    have main : ∀ ms : List (Measure × MeasureInformation),
        (∀ p ∈ ms, viewsDistinct p.2.views) →
        ∀ p ∈ (addConsumerMeasures ms d s.nextId).2, viewsDistinct p.2.views := by
      intro ms
      induction ms with
      | nil => intro _ p hp; exact absurd hp (by simp [addConsumerMeasures])
      | cons q rest ih =>
        intro hms p hp
        obtain ⟨q1, q2⟩ := q
        by_cases hq : (q1 == d.measure) = true
        · rw [addConsumerMeasures, if_pos hq] at hp
          rcases List.mem_cons.1 hp with rfl | htail
          · exact pairwise_addConsumerViews d s.nextId q2.views
              (hms _ (List.mem_cons_self _ _))
          · exact hms p (List.mem_cons_of_mem _ htail)
        · rw [addConsumerMeasures, if_neg hq] at hp
          rcases List.mem_cons.1 hp with rfl | htail
          · exact hms _ (List.mem_cons_self _ _)
          · exact ih (fun u hu => hms u (List.mem_cons_of_mem _ hu)) p htail
    intro p hp
    exact main s.measures hs p hp
  | removeConsumer h =>
    have main : ∀ ms : List (Measure × MeasureInformation),
        (∀ p ∈ ms, viewsDistinct p.2.views) →
        ∀ p ∈ removeConsumerMeasures ms h, viewsDistinct p.2.views := by
      intro ms
      induction ms with
      | nil => intro _ p hp; exact absurd hp (by simp [removeConsumerMeasures])
      | cons q rest ih =>
        intro hms p hp
        obtain ⟨q1, q2⟩ := q
        by_cases hq : (q2.views.any fun v => v.id == h) = true
        · rw [removeConsumerMeasures, if_pos hq] at hp
          rcases List.mem_cons.1 hp with rfl | htail
          · exact pairwise_removeConsumerViews h q2.views
              (hms _ (List.mem_cons_self _ _))
          · exact hms p (List.mem_cons_of_mem _ htail)
        · rw [removeConsumerMeasures, if_neg hq] at hp
          rcases List.mem_cons.1 hp with rfl | htail
          · exact hms _ (List.mem_cons_self _ _)
          · exact ih (fun u hu => hms u (List.mem_cons_of_mem _ hu)) p htail
    intro p hp
    exact main s.measures hs p hp
  | record measurements tags now =>
    have step : ∀ (meas : Measure) (value : Int)
        (ms : List (Measure × MeasureInformation)),
        (∀ p ∈ ms, viewsDistinct p.2.views) →
        ∀ p ∈ recordMeasures ms meas value tags now, viewsDistinct p.2.views := by
      intro meas value ms
      induction ms with
      | nil => intro _ p hp; exact absurd hp (by simp [recordMeasures])
      | cons q rest ih =>
        intro hms p hp
        obtain ⟨q1, q2⟩ := q
        by_cases hq : (q1 == meas) = true
        · rw [recordMeasures, if_pos hq] at hp
          rcases List.mem_cons.1 hp with rfl | htail
          · exact pairwise_recordViews value tags now q2.views
              (hms _ (List.mem_cons_self _ _))
          · exact hms p (List.mem_cons_of_mem _ htail)
        · rw [recordMeasures, if_neg hq] at hp
          rcases List.mem_cons.1 hp with rfl | htail
          · exact hms _ (List.mem_cons_self _ _)
          · exact ih (fun u hu => hms u (List.mem_cons_of_mem _ hu)) p htail
    have main : ∀ (mts : List Measurement) (ms : List (Measure × MeasureInformation)),
        (∀ p ∈ ms, viewsDistinct p.2.views) →
        ∀ p ∈ mts.foldl (fun acc mt => recordMeasures acc mt.measure mt.value tags now) ms,
          viewsDistinct p.2.views := by
      intro mts
      induction mts with
      | nil => intro ms hms; exact hms
      | cons mt rest ih =>
        intro ms hms
        rw [List.foldl_cons]
        exact ih _ (step mt.measure mt.value ms hms)
    intro p hp
    exact main measurements s.measures hs p hp

theorem managerDistinct_runOps :
    ∀ (ops : List Op) (s : StatsManager), managerDistinct s →
      managerDistinct (ops.foldl applyOp s) := by
  intro ops
  induction ops with
  | nil => intro s hs; exact hs
  | cons op rest ih =>
    intro s hs
    rw [List.foldl_cons]
    exact ih _ (managerDistinct_applyOp s op hs)

/-- C5: in every reachable manager state, no two distinct live views of
one measure entry structurally match: `Matches` is false both ways
between any two of them. -/
theorem claimC5_no_duplicate_live_views (s : StatsManager) (hs : Reachable s) :
    ∀ p ∈ s.measures, p.2.views.Pairwise
      (fun a b => a.Matches b.descriptor = false ∧ b.Matches a.descriptor = false) := by
  rcases hs with ⟨ops, rfl⟩
  have h := managerDistinct_runOps ops initialState
    (by intro p hp; exact absurd hp (by simp [initialState]))
  intro p hp
  refine List.Pairwise.imp ?_ (h p hp)
  intro a b hab
  refine ⟨hab, ?_⟩
  rw [ViewInformation.Matches, structurallyMatches_comm]
  exact hab

/-- C5 witness: in the state reached by registering measure 0 and adding
two structurally different views, the measure entry's two views are
pairwise non-matching. -/
theorem claimC5_no_duplicate_live_views_witness :
    List.Pairwise
      (fun a b : ViewInformation =>
        a.Matches b.descriptor = false ∧ b.Matches a.descriptor = false)
      [⟨0, ⟨"a", "", ⟨0, .intKind⟩, .sum, .cumulative, []⟩, 1, ⟨[]⟩⟩,
       ⟨1, ⟨"b", "", ⟨0, .intKind⟩, .count, .cumulative, []⟩, 1, ⟨[]⟩⟩] :=
  claimC5_no_duplicate_live_views
    (runOps [.addMeasure ⟨0, .intKind⟩,
      .addConsumer ⟨"a", "", ⟨0, .intKind⟩, .sum, .cumulative, []⟩,
      .addConsumer ⟨"b", "", ⟨0, .intKind⟩, .count, .cumulative, []⟩])
    ⟨_, rfl⟩
    (⟨0, .intKind⟩,
      ⟨[⟨0, ⟨"a", "", ⟨0, .intKind⟩, .sum, .cumulative, []⟩, 1, ⟨[]⟩⟩,
        ⟨1, ⟨"b", "", ⟨0, .intKind⟩, .count, .cumulative, []⟩, 1, ⟨[]⟩⟩]⟩)
    (by decide)

/-! ### Characterising find-or-create on a view list -/

theorem findCons_pos {α : Type} {p : α → Bool} {a : α} (l : List α) (h : p a = true) :
    (a :: l).find? p = some a := by
  simp [List.find?_cons, h]

theorem findCons_neg {α : Type} {p : α → Bool} {a : α} (l : List α) (h : p a = false) :
    (a :: l).find? p = l.find? p := by
  simp [List.find?_cons, h]

theorem addConsumerViews_of_find_eq_none (d : ViewDescriptor) (fid : Nat) :
    ∀ views, views.find? (fun v => v.Matches d) = none →
      addConsumerViews views d fid = (fid, views ++ [newViewInformation fid d]) := by
  intro views
  induction views with
  | nil => intro _; rfl
  | cons v rest ih =>
    intro h
    have hv : v.Matches d = false := by
      rcases hc : v.Matches d with _ | _
      · rfl
      · rw [findCons_pos rest hc] at h
        exact absurd h (by simp)
    rw [findCons_neg rest hv] at h
    rw [addConsumerViews, if_neg (by simp [hv]), ih h]
    rfl

theorem addConsumerViews_append_match (d : ViewDescriptor) (fid : Nat)
    (va : ViewInformation) (vs₂ : List ViewInformation) (hva : va.Matches d = true) :
    ∀ vs₁, (∀ u ∈ vs₁, u.Matches d = false) →
      addConsumerViews (vs₁ ++ va :: vs₂) d fid = (va.id, vs₁ ++ va.addConsumer :: vs₂) := by
  intro vs₁
  induction vs₁ with
  | nil => intro _; rw [List.nil_append, addConsumerViews, if_pos hva]; rfl
  | cons u rest ih =>
    intro hall
    have hu : u.Matches d = false := hall u (List.mem_cons_self _ _)
    rw [List.cons_append, addConsumerViews, if_neg (by simp [hu]),
      ih (fun w hw => hall w (List.mem_cons_of_mem _ hw))]
    rfl

theorem find?_append_match (d : ViewDescriptor) (va : ViewInformation)
    (vs₂ : List ViewInformation) (hva : va.Matches d = true)
    (vs₁ : List ViewInformation) (hall : ∀ u ∈ vs₁, u.Matches d = false) :
    (vs₁ ++ va :: vs₂).find? (fun w => w.Matches d) = some va := by
  rw [List.find?_append]
  have h1 : vs₁.find? (fun w => w.Matches d) = none :=
    List.find?_eq_none.2 (fun u hu => by rw [hall u hu]; simp)
  rw [h1, Option.none_or, findCons_pos vs₂ hva]

theorem addConsumerViews_of_find_eq_some (d : ViewDescriptor) (fid : Nat) :
    ∀ (views : List ViewInformation) (v : ViewInformation),
      views.find? (fun w => w.Matches d) = some v →
      ∃ vs₁ vs₂, views = vs₁ ++ v :: vs₂ ∧ (∀ u ∈ vs₁, u.Matches d = false) := by
  intro views
  induction views with
  | nil => intro v h; exact absurd h (by simp)
  | cons w rest ih =>
    intro v h
    rcases hw : w.Matches d with _ | _
    · rw [findCons_neg rest hw] at h
      rcases ih v h with ⟨vs₁, vs₂, hsplit, hall⟩
      refine ⟨w :: vs₁, vs₂, by rw [hsplit]; rfl, ?_⟩
      intro u hu
      rcases List.mem_cons.1 hu with rfl | hu
      · exact hw
      · exact hall u hu
    · rw [findCons_pos rest hw] at h
      have hwv : w = v := by injection h
      subst hwv
      exact ⟨[], rest, rfl, by simp⟩

theorem addConsumerViews_ids (d : ViewDescriptor) (fid : Nat) :
    ∀ views, idsOf (addConsumerViews views d fid).2 = idsOf views ∨
      idsOf (addConsumerViews views d fid).2 = idsOf views ++ [fid] := by
  intro views
  induction views with
  | nil => right; rfl
  | cons v rest ih =>
    by_cases hv : v.Matches d = true
    · left; rw [addConsumerViews, if_pos hv]; rfl
    · rw [addConsumerViews, if_neg hv]
      rcases ih with ih | ih
      · left
        show v.id :: idsOf (addConsumerViews rest d fid).2 = v.id :: idsOf rest
        rw [ih]
      · right
        show v.id :: idsOf (addConsumerViews rest d fid).2 = (v.id :: idsOf rest) ++ [fid]
        rw [ih]; rfl

/-! ### Decomposition of the measure list -/

theorem exists_split_of_registered {ms : List (Measure × MeasureInformation)} {m : Measure}
    (h : (ms.any fun p => p.1 == m) = true) :
    ∃ pre mi post, ms = pre ++ (m, mi) :: post ∧ ∀ p ∈ pre, (p.1 == m) = false := by
  induction ms with
  | nil => exact absurd h (by simp)
  | cons q rest ih =>
    obtain ⟨q1, q2⟩ := q
    by_cases hq : (q1 == m) = true
    · have hq1 : q1 = m := by simpa using hq
      subst hq1
      exact ⟨[], q2, rest, rfl, by simp⟩
    · have hrest : (rest.any fun p => p.1 == m) = true := by
        simp only [List.any_cons] at h
        rcases Bool.or_eq_true_iff.1 h with h1 | h1
        · exact absurd h1 hq
        · exact h1
      rcases ih hrest with ⟨pre, mi, post, hsplit, hall⟩
      refine ⟨(q1, q2) :: pre, mi, post, by rw [hsplit]; rfl, ?_⟩
      intro p hp
      rcases List.mem_cons.1 hp with rfl | hp
      · exact Bool.not_eq_true _ ▸ hq
      · exact hall p hp

theorem addConsumerMeasures_append (d : ViewDescriptor) (fid : Nat)
    (mi : MeasureInformation) (post : List (Measure × MeasureInformation)) :
    ∀ pre, (∀ p ∈ pre, (p.1 == d.measure) = false) →
      addConsumerMeasures (pre ++ (d.measure, mi) :: post) d fid =
        (some (addConsumerViews mi.views d fid).1,
          pre ++ (d.measure, ⟨(addConsumerViews mi.views d fid).2⟩) :: post) := by
  intro pre
  induction pre with
  | nil =>
    intro _
    rw [List.nil_append, addConsumerMeasures, if_pos (by simp)]
    rfl
  | cons q rest ih =>
    intro hall
    obtain ⟨q1, q2⟩ := q
    have hq : (q1 == d.measure) = false := hall (q1, q2) (List.mem_cons_self _ _)
    rw [List.cons_append, addConsumerMeasures, if_neg (by simp [hq]),
      ih (fun p hp => hall p (List.mem_cons_of_mem _ hp))]
    rfl

theorem flatViews_append_middle (pre : List (Measure × MeasureInformation))
    (x : Measure × MeasureInformation) (post : List (Measure × MeasureInformation)) :
    flatViews (pre ++ x :: post) = flatViews pre ++ x.2.views ++ flatViews post := by
  unfold flatViews
  rw [List.map_append, List.flatten_append, List.map_cons, List.flatten_cons,
    List.append_assoc]

/-! ### Finding a view by handle -/

theorem find?_id_of_nodup (h : Nat) :
    ∀ l : List ViewInformation, (idsOf l).Nodup →
      ∀ v ∈ l, v.id = h → l.find? (fun w => w.id == h) = some v := by
  intro l
  induction l with
  | nil => intro _ v hv; exact absurd hv (by simp)
  | cons u rest ih =>
    intro hnd v hv hvh
    have hnd' := hnd
    rw [idsOf, List.map_cons, List.nodup_cons] at hnd'
    rcases List.mem_cons.1 hv with rfl | hv
    · exact findCons_pos rest (by simp [hvh])
    · have hu : (u.id == h) = false := by
        rcases hc : (u.id == h) with _ | _
        · rfl
        · have huh : u.id = h := by simpa using hc
          exfalso
          apply hnd'.1
          rw [huh, ← hvh]
          exact List.mem_map_of_mem (fun w => w.id) hv
      rw [findCons_neg rest hu]
      exact ih hnd'.2 v hv hvh

theorem findView_of_nodup (s : StatsManager) (hnd : (idsOf (allViews s)).Nodup)
    (va : ViewInformation) (hmem : va ∈ allViews s) :
    s.findView va.id = some va :=
  find?_id_of_nodup va.id (allViews s) hnd va hmem rfl

theorem findView_none (s : StatsManager) (h : Nat)
    (hall : ∀ v ∈ allViews s, v.id ≠ h) :
    s.findView h = none :=
  List.find?_eq_none.2 (fun v hv => by simp [hall v hv])

/-! ### Handle freshness bookkeeping -/

theorem nodup_insert_middle {α : Type} (A B C : List α) (x : α)
    (h : (A ++ B ++ C).Nodup) (hx : x ∉ A ++ B ++ C) :
    (A ++ (B ++ [x]) ++ C).Nodup := by
  have hperm : (A ++ (B ++ [x]) ++ C).Perm ((A ++ B ++ C) ++ [x]) := by
    have e1 : A ++ (B ++ [x]) ++ C = (A ++ B) ++ ([x] ++ C) := by
      simp [List.append_assoc]
    have e2 : (A ++ B ++ C) ++ [x] = (A ++ B) ++ (C ++ [x]) := by
      simp [List.append_assoc]
    rw [e1, e2]
    exact List.Perm.append_left _ (List.perm_append_comm)
  refine hperm.nodup_iff.2 ?_
  rw [List.nodup_append]
  refine ⟨h, by simp, ?_⟩
  intro a ha hax
  rw [List.mem_singleton] at hax
  exact hx (hax ▸ ha)

/-! ### Two structurally matching requests on one view list -/

theorem addConsumerViews_twice (d₁ d₂ : ViewDescriptor) (fid₁ fid₂ : Nat)
    (hm : structurallyMatches d₁ d₂ = true) (views : List ViewInformation) :
    ∃ vs₁ va vs₂,
      (addConsumerViews views d₁ fid₁).2 = vs₁ ++ va :: vs₂ ∧
      (addConsumerViews views d₁ fid₁).1 = va.id ∧
      va.Matches d₁ = true ∧
      (∀ u ∈ vs₁, u.Matches d₁ = false) ∧
      addConsumerViews (addConsumerViews views d₁ fid₁).2 d₂ fid₂ =
        (va.id, vs₁ ++ va.addConsumer :: vs₂) := by
  have hcong : ∀ u : ViewInformation, u.Matches d₂ = u.Matches d₁ :=
    fun u => Matches_congr u hm
  rcases hfind : views.find? (fun w => w.Matches d₁) with _ | v
  · have hnone : ∀ u ∈ views, u.Matches d₁ = false := by
      intro u hu
      have := List.find?_eq_none.1 hfind u hu
      rcases hc : u.Matches d₁ with _ | _
      · rfl
      · exact absurd hc this
    have h1 := addConsumerViews_of_find_eq_none d₁ fid₁ views hfind
    refine ⟨views, newViewInformation fid₁ d₁, [], by rw [h1], by rw [h1]; rfl, ?_, hnone, ?_⟩
    · exact structurallyMatches_refl d₁
    · rw [h1]
      exact addConsumerViews_append_match d₂ fid₂ (newViewInformation fid₁ d₁) [] hm
        views (fun u hu => (hcong u).trans (hnone u hu))
  · rcases addConsumerViews_of_find_eq_some d₁ fid₁ views v hfind with ⟨vs₁, vs₂, hsplit, hall⟩
    have hv : v.Matches d₁ = true := by simpa using List.find?_some hfind
    have h1 : addConsumerViews views d₁ fid₁ = (v.id, vs₁ ++ v.addConsumer :: vs₂) := by
      rw [hsplit]
      exact addConsumerViews_append_match d₁ fid₁ v vs₂ hv vs₁ hall
    refine ⟨vs₁, v.addConsumer, vs₂, by rw [h1], by rw [h1]; rfl, hv, hall, ?_⟩
    rw [h1]
    exact addConsumerViews_append_match d₂ fid₂ v.addConsumer vs₂
      ((hcong v.addConsumer).trans hv) vs₁
      (fun u hu => (hcong u).trans (hall u hu))

/-! ### Handle freshness is preserved by AddConsumer -/

theorem idsOf_append (A B : List ViewInformation) : idsOf (A ++ B) = idsOf A ++ idsOf B :=
  List.map_append _ A B

theorem addConsumerMeasures_ids (d : ViewDescriptor) (fid : Nat) :
    ∀ ms : List (Measure × MeasureInformation),
      idsOf (flatViews (addConsumerMeasures ms d fid).2) = idsOf (flatViews ms) ∨
      (idsOf (flatViews (addConsumerMeasures ms d fid).2)).Perm
        (fid :: idsOf (flatViews ms)) := by
  intro ms
  induction ms with
  | nil => left; rfl
  | cons q rest ih =>
    obtain ⟨q1, q2⟩ := q
    by_cases hq : (q1 == d.measure) = true
    · rw [addConsumerMeasures, if_pos hq]
      have hflat : ∀ mi : MeasureInformation,
          flatViews ((q1, mi) :: rest) = mi.views ++ flatViews rest :=
        fun mi => by rw [flatViews, List.map_cons, List.flatten_cons]; rfl
      rw [hflat, hflat, idsOf_append, idsOf_append]
      rcases addConsumerViews_ids d fid q2.views with h | h
      · left; rw [h]
      · right
        rw [h, List.append_assoc]
        have : [fid] ++ idsOf (flatViews rest) = fid :: idsOf (flatViews rest) := rfl
        rw [this]
        exact List.perm_middle
    · rw [addConsumerMeasures, if_neg hq]
      have hflat : ∀ tail : List (Measure × MeasureInformation),
          flatViews ((q1, q2) :: tail) = q2.views ++ flatViews tail :=
        fun tail => by rw [flatViews, List.map_cons, List.flatten_cons]; rfl
      rw [hflat, hflat, idsOf_append, idsOf_append]
      rcases ih with h | h
      · left; rw [h]
      · right
        exact (h.append_left (idsOf q2.views)).trans List.perm_middle

theorem idsWF_addConsumer (s : StatsManager) (d : ViewDescriptor) (hwf : idsWF s) :
    idsWF (s.AddConsumer d).2 := by
  have hids : idsOf (allViews (s.AddConsumer d).2) =
        idsOf (flatViews (addConsumerMeasures s.measures d s.nextId).2) := rfl
  have hnew : s.nextId ∉ idsOf (allViews s) := by
    intro hc
    rcases List.mem_map.1 hc with ⟨v, hv, hvid⟩
    exact absurd (hvid ▸ hwf.2 v hv) (lt_irrefl _)
  constructor
  · rw [hids]
    rcases addConsumerMeasures_ids d s.nextId s.measures with h | h
    · rw [h]; exact hwf.1
    · exact h.nodup_iff.2 (List.nodup_cons.2 ⟨hnew, hwf.1⟩)
  · intro v hv
    show v.id < s.nextId + 1
    have hmem : v.id ∈ idsOf (flatViews (addConsumerMeasures s.measures d s.nextId).2) :=
      List.mem_map_of_mem _ hv
    have hfin : v.id ∈ s.nextId :: idsOf (allViews s) := by
      rcases addConsumerMeasures_ids d s.nextId s.measures with h | h
      · rw [h] at hmem
        exact List.mem_cons_of_mem _ hmem
      · exact h.mem_iff.1 hmem
    rcases List.mem_cons.1 hfin with hfv | hfv
    · rw [hfv]; exact Nat.lt_succ_self _
    · rcases List.mem_map.1 hfv with ⟨u, hu, huid⟩
      exact Nat.lt_succ_of_lt (huid ▸ hwf.2 u hu)

theorem AddConsumer_eq (s : StatsManager) (d : ViewDescriptor) :
    s.AddConsumer d = ((addConsumerMeasures s.measures d s.nextId).1,
      ⟨(addConsumerMeasures s.measures d s.nextId).2, s.nextId + 1⟩) := rfl

/-- C1: two `AddConsumer` requests whose view definitions are structurally
identical (same measure, aggregation, window and grouping columns, but
possibly different name and description) return handles to the same view:
the second request takes the linear-scan hit path, increments the existing
view's consumer count, returns the existing handle, and constructs no new
view. -/
theorem claimC1_structural_match_shares_entry (s : StatsManager)
    (d₁ d₂ : ViewDescriptor) (hwf : idsWF s)
    (hreg : s.registered d₁.measure = true)
    (hmatch : structurallyMatches d₁ d₂ = true) :
    ∃ h₁ v₁,
      (s.AddConsumer d₁).1 = some h₁ ∧
      (s.AddConsumer d₁).2.findView h₁ = some v₁ ∧
      ((s.AddConsumer d₁).2.AddConsumer d₂).1 = some h₁ ∧
      ((s.AddConsumer d₁).2.AddConsumer d₂).2.findView h₁ = some v₁.addConsumer ∧
      totalViews ((s.AddConsumer d₁).2.AddConsumer d₂).2 =
        totalViews (s.AddConsumer d₁).2 := by
  obtain ⟨pre, mi, post, hsplit, hpre⟩ := exists_split_of_registered hreg
  obtain ⟨vs₁, va, vs₂, hviews1, hhandle, hvaM, hvs1, hsecond⟩ :=
    addConsumerViews_twice d₁ d₂ s.nextId (s.nextId + 1) hmatch mi.views
  have hmeas : d₂.measure = d₁.measure :=
    ((structurallyMatches_iff d₁ d₂).1 hmatch).1.symm
  have hAC1 : s.AddConsumer d₁ =
      (some (addConsumerViews mi.views d₁ s.nextId).1,
        ⟨pre ++ (d₁.measure, ⟨(addConsumerViews mi.views d₁ s.nextId).2⟩) :: post,
          s.nextId + 1⟩) := by
    unfold StatsManager.AddConsumer
    rw [hsplit, addConsumerMeasures_append d₁ s.nextId mi post pre hpre]
  have hwf1 : idsWF (s.AddConsumer d₁).2 := idsWF_addConsumer s d₁ hwf
  have hs1meas : (s.AddConsumer d₁).2.measures =
      pre ++ (d₁.measure, ⟨(addConsumerViews mi.views d₁ s.nextId).2⟩) :: post := by
    rw [congrArg Prod.snd hAC1]
  have hs1next : (s.AddConsumer d₁).2.nextId = s.nextId + 1 := by
    rw [congrArg Prod.snd hAC1]
  have hh1 : (s.AddConsumer d₁).1 = some va.id := by
    rw [congrArg Prod.fst hAC1, hhandle]
  have hmem1 : va ∈ allViews (s.AddConsumer d₁).2 := by
    rw [allViews, hs1meas, flatViews_append_middle]
    have hva : va ∈ (addConsumerViews mi.views d₁ s.nextId).2 := by
      rw [hviews1]
      exact List.mem_append.2 (Or.inr (List.mem_cons_self _ _))
    exact List.mem_append.2 (Or.inl (List.mem_append.2 (Or.inr hva)))
  have hfv1 : (s.AddConsumer d₁).2.findView va.id = some va :=
    findView_of_nodup _ hwf1.1 va hmem1
  have hpre2 : ∀ p ∈ pre, (p.1 == d₂.measure) = false := by
    rw [hmeas]; exact hpre
  have hs1meas2 : (s.AddConsumer d₁).2.measures =
      pre ++ (d₂.measure, ⟨(addConsumerViews mi.views d₁ s.nextId).2⟩) :: post := by
    rw [hs1meas, hmeas]
  have hAC2 : (s.AddConsumer d₁).2.AddConsumer d₂ =
      (some va.id,
        ⟨pre ++ (d₂.measure, ⟨vs₁ ++ va.addConsumer :: vs₂⟩) :: post,
          (s.AddConsumer d₁).2.nextId + 1⟩) := by
    rw [AddConsumer_eq ((s.AddConsumer d₁).2) d₂, hs1meas2, hs1next,
      addConsumerMeasures_append d₂ (s.nextId + 1)
        ⟨(addConsumerViews mi.views d₁ s.nextId).2⟩ post pre hpre2]
    rw [show (⟨(addConsumerViews mi.views d₁ s.nextId).2⟩ :
        MeasureInformation).views = (addConsumerViews mi.views d₁ s.nextId).2 from rfl,
      hsecond]
  have hwf2 : idsWF ((s.AddConsumer d₁).2.AddConsumer d₂).2 :=
    idsWF_addConsumer _ d₂ hwf1
  have hs2meas : ((s.AddConsumer d₁).2.AddConsumer d₂).2.measures =
      pre ++ (d₂.measure, ⟨vs₁ ++ va.addConsumer :: vs₂⟩) :: post := by
    rw [congrArg Prod.snd hAC2]
  refine ⟨va.id, va, hh1, hfv1, ?_, ?_, ?_⟩
  · rw [congrArg Prod.fst hAC2]
  · have hmem2 : va.addConsumer ∈ allViews ((s.AddConsumer d₁).2.AddConsumer d₂).2 := by
      rw [allViews, hs2meas, flatViews_append_middle]
      have hva : va.addConsumer ∈
          (⟨vs₁ ++ va.addConsumer :: vs₂⟩ : MeasureInformation).views :=
        List.mem_append.2 (Or.inr (List.mem_cons_self _ _))
      exact List.mem_append.2 (Or.inl (List.mem_append.2 (Or.inr hva)))
    exact findView_of_nodup _ hwf2.1 va.addConsumer hmem2
  · rw [totalViews, totalViews, allViews, allViews, hs2meas, hs1meas,
      flatViews_append_middle, flatViews_append_middle]
    show (flatViews pre ++ (vs₁ ++ va.addConsumer :: vs₂) ++ flatViews post).length =
      (flatViews pre ++ (addConsumerViews mi.views d₁ s.nextId).2 ++ flatViews post).length
    rw [hviews1]
    simp [List.length_append]

/-- C1 witness: in the state that registered measure 0, two requests whose
definitions differ only in name and description share one view. -/
theorem claimC1_structural_match_shares_entry_witness :
    ∃ h₁ v₁,
      (StatsManager.AddConsumer ⟨[(⟨0, .intKind⟩, ⟨[]⟩)], 0⟩
          ⟨"a", "da", ⟨0, .intKind⟩, .sum, .cumulative, ["k"]⟩).1 = some h₁ ∧
      (StatsManager.AddConsumer ⟨[(⟨0, .intKind⟩, ⟨[]⟩)], 0⟩
          ⟨"a", "da", ⟨0, .intKind⟩, .sum, .cumulative, ["k"]⟩).2.findView h₁ = some v₁ ∧
      ((StatsManager.AddConsumer ⟨[(⟨0, .intKind⟩, ⟨[]⟩)], 0⟩
          ⟨"a", "da", ⟨0, .intKind⟩, .sum, .cumulative, ["k"]⟩).2.AddConsumer
          ⟨"b", "db", ⟨0, .intKind⟩, .sum, .cumulative, ["k"]⟩).1 = some h₁ ∧
      ((StatsManager.AddConsumer ⟨[(⟨0, .intKind⟩, ⟨[]⟩)], 0⟩
          ⟨"a", "da", ⟨0, .intKind⟩, .sum, .cumulative, ["k"]⟩).2.AddConsumer
          ⟨"b", "db", ⟨0, .intKind⟩, .sum, .cumulative, ["k"]⟩).2.findView h₁ =
        some v₁.addConsumer ∧
      totalViews ((StatsManager.AddConsumer ⟨[(⟨0, .intKind⟩, ⟨[]⟩)], 0⟩
          ⟨"a", "da", ⟨0, .intKind⟩, .sum, .cumulative, ["k"]⟩).2.AddConsumer
          ⟨"b", "db", ⟨0, .intKind⟩, .sum, .cumulative, ["k"]⟩).2 =
        totalViews (StatsManager.AddConsumer ⟨[(⟨0, .intKind⟩, ⟨[]⟩)], 0⟩
          ⟨"a", "da", ⟨0, .intKind⟩, .sum, .cumulative, ["k"]⟩).2 :=
  claimC1_structural_match_shares_entry ⟨[(⟨0, .intKind⟩, ⟨[]⟩)], 0⟩
    ⟨"a", "da", ⟨0, .intKind⟩, .sum, .cumulative, ["k"]⟩
    ⟨"b", "db", ⟨0, .intKind⟩, .sum, .cumulative, ["k"]⟩
    (by decide) (by decide) (by decide)

/-- C9: when `AddConsumer` reuses an existing view for a structurally
matching definition that differs in name or description, the stored
descriptor exposed through `view_descriptor()` is unchanged: the later
consumer observes the full descriptor (name and description included)
supplied by the view's original creating caller. -/
theorem claimC9_reused_entry_keeps_creator_descriptor (s : StatsManager)
    (d₁ d₂ : ViewDescriptor) (hwf : idsWF s)
    (hreg : s.registered d₁.measure = true)
    (hmatch : structurallyMatches d₁ d₂ = true)
    (hmiss : ∀ v ∈ allViews s, v.Matches d₁ = false) :
    ∃ h₁,
      (s.AddConsumer d₁).1 = some h₁ ∧
      ((s.AddConsumer d₁).2.AddConsumer d₂).1 = some h₁ ∧
      ∃ v₂, ((s.AddConsumer d₁).2.AddConsumer d₂).2.findView h₁ = some v₂ ∧
        v₂.view_descriptor = d₁ := by
  obtain ⟨pre, mi, post, hsplit, hpre⟩ := exists_split_of_registered hreg
  have hmeas : d₂.measure = d₁.measure :=
    ((structurallyMatches_iff d₁ d₂).1 hmatch).1.symm
  have hsub : ∀ v ∈ mi.views, v ∈ allViews s := by
    intro v hv
    rw [allViews, hsplit, flatViews_append_middle]
    exact List.mem_append.2 (Or.inl (List.mem_append.2 (Or.inr hv)))
  have hfnone : mi.views.find? (fun w => w.Matches d₁) = none :=
    List.find?_eq_none.2 (fun u hu => by rw [hmiss u (hsub u hu)]; simp)
  have h1 := addConsumerViews_of_find_eq_none d₁ s.nextId mi.views hfnone
  have hAC1 : s.AddConsumer d₁ =
      (some (addConsumerViews mi.views d₁ s.nextId).1,
        ⟨pre ++ (d₁.measure, ⟨(addConsumerViews mi.views d₁ s.nextId).2⟩) :: post,
          s.nextId + 1⟩) := by
    rw [AddConsumer_eq, hsplit, addConsumerMeasures_append d₁ s.nextId mi post pre hpre]
  have hwf1 : idsWF (s.AddConsumer d₁).2 := idsWF_addConsumer s d₁ hwf
  have hs1meas2 : (s.AddConsumer d₁).2.measures =
      pre ++ (d₂.measure, ⟨(addConsumerViews mi.views d₁ s.nextId).2⟩) :: post := by
    rw [congrArg Prod.snd hAC1, hmeas]
  have hs1next : (s.AddConsumer d₁).2.nextId = s.nextId + 1 := by
    rw [congrArg Prod.snd hAC1]
  have hpre2 : ∀ p ∈ pre, (p.1 == d₂.measure) = false := by
    rw [hmeas]; exact hpre
  have hsecond : addConsumerViews (addConsumerViews mi.views d₁ s.nextId).2 d₂
      (s.nextId + 1) =
      ((newViewInformation s.nextId d₁).id,
        mi.views ++ (newViewInformation s.nextId d₁).addConsumer :: []) := by
    rw [h1]
    exact addConsumerViews_append_match d₂ (s.nextId + 1)
      (newViewInformation s.nextId d₁) [] hmatch mi.views
      (fun u hu => (Matches_congr u hmatch).trans (hmiss u (hsub u hu)))
  have hAC2 : (s.AddConsumer d₁).2.AddConsumer d₂ =
      (some s.nextId,
        ⟨pre ++ (d₂.measure,
            ⟨mi.views ++ (newViewInformation s.nextId d₁).addConsumer :: []⟩) :: post,
          (s.AddConsumer d₁).2.nextId + 1⟩) := by
    rw [AddConsumer_eq ((s.AddConsumer d₁).2) d₂, hs1meas2, hs1next,
      addConsumerMeasures_append d₂ (s.nextId + 1)
        ⟨(addConsumerViews mi.views d₁ s.nextId).2⟩ post pre hpre2]
    rw [show (⟨(addConsumerViews mi.views d₁ s.nextId).2⟩ :
        MeasureInformation).views = (addConsumerViews mi.views d₁ s.nextId).2 from rfl,
      hsecond]
    rfl
  have hwf2 : idsWF ((s.AddConsumer d₁).2.AddConsumer d₂).2 :=
    idsWF_addConsumer _ d₂ hwf1
  refine ⟨s.nextId, ?_, ?_, (newViewInformation s.nextId d₁).addConsumer, ?_, rfl⟩
  · rw [congrArg Prod.fst hAC1, h1]
  · rw [congrArg Prod.fst hAC2]
  · have hmem2 : (newViewInformation s.nextId d₁).addConsumer ∈
        allViews ((s.AddConsumer d₁).2.AddConsumer d₂).2 := by
      rw [allViews, congrArg Prod.snd hAC2, flatViews_append_middle]
      have hva : (newViewInformation s.nextId d₁).addConsumer ∈
          (⟨mi.views ++ (newViewInformation s.nextId d₁).addConsumer :: []⟩ :
            MeasureInformation).views :=
        List.mem_append.2 (Or.inr (List.mem_cons_self _ _))
      exact List.mem_append.2 (Or.inl (List.mem_append.2 (Or.inr hva)))
    exact findView_of_nodup _ hwf2.1 _ hmem2

/-- C9 witness: measure 0 registered, the creating request uses name "a",
the reusing request name "b"; the shared view still exposes descriptor
name "a". -/
theorem claimC9_reused_entry_keeps_creator_descriptor_witness :
    ∃ h₁,
      (StatsManager.AddConsumer ⟨[(⟨0, .intKind⟩, ⟨[]⟩)], 0⟩
          ⟨"a", "da", ⟨0, .intKind⟩, .sum, .cumulative, ["k"]⟩).1 = some h₁ ∧
      ((StatsManager.AddConsumer ⟨[(⟨0, .intKind⟩, ⟨[]⟩)], 0⟩
          ⟨"a", "da", ⟨0, .intKind⟩, .sum, .cumulative, ["k"]⟩).2.AddConsumer
          ⟨"b", "db", ⟨0, .intKind⟩, .sum, .cumulative, ["k"]⟩).1 = some h₁ ∧
      ∃ v₂, ((StatsManager.AddConsumer ⟨[(⟨0, .intKind⟩, ⟨[]⟩)], 0⟩
          ⟨"a", "da", ⟨0, .intKind⟩, .sum, .cumulative, ["k"]⟩).2.AddConsumer
          ⟨"b", "db", ⟨0, .intKind⟩, .sum, .cumulative, ["k"]⟩).2.findView h₁ = some v₂ ∧
        v₂.view_descriptor = ⟨"a", "da", ⟨0, .intKind⟩, .sum, .cumulative, ["k"]⟩ :=
  claimC9_reused_entry_keeps_creator_descriptor ⟨[(⟨0, .intKind⟩, ⟨[]⟩)], 0⟩
    ⟨"a", "da", ⟨0, .intKind⟩, .sum, .cumulative, ["k"]⟩
    ⟨"b", "db", ⟨0, .intKind⟩, .sum, .cumulative, ["k"]⟩
    (by decide) (by decide) (by decide) (by decide)

/-! ### Characterising consumer removal -/

theorem flatViews_cons (q : Measure × MeasureInformation)
    (rest : List (Measure × MeasureInformation)) :
    flatViews (q :: rest) = q.2.views ++ flatViews rest := by
  rw [flatViews, List.map_cons, List.flatten_cons]; rfl

theorem idsOf_cons (v : ViewInformation) (l : List ViewInformation) :
    idsOf (v :: l) = v.id :: idsOf l := rfl

theorem mem_flatViews_of_mem {ms : List (Measure × MeasureInformation)}
    {p : Measure × MeasureInformation} {u : ViewInformation}
    (hp : p ∈ ms) (hu : u ∈ p.2.views) : u ∈ flatViews ms := by
  rw [flatViews, List.mem_flatten]
  exact ⟨p.2.views, List.mem_map_of_mem _ hp, hu⟩

theorem exists_measure_of_mem_flat :
    ∀ (ms : List (Measure × MeasureInformation)) (v : ViewInformation),
      v ∈ flatViews ms →
      ∃ pre m mi post, ms = pre ++ (m, mi) :: post ∧ v ∈ mi.views := by
  intro ms
  induction ms with
  | nil => intro v hv; exact absurd hv (by simp [flatViews])
  | cons q rest ih =>
    intro v hv
    rw [flatViews_cons] at hv
    rcases List.mem_append.1 hv with h | h
    · exact ⟨[], q.1, q.2, rest, by rw [List.nil_append], h⟩
    · rcases ih v h with ⟨pre, m, mi, post, hsplit, hmem⟩
      exact ⟨q :: pre, m, mi, post, by rw [hsplit]; rfl, hmem⟩

theorem nodup_ids_split (A B : List ViewInformation) (v : ViewInformation)
    (h : (idsOf (A ++ v :: B)).Nodup) :
    (∀ u ∈ A, (u.id == v.id) = false) ∧ ∀ u ∈ B, (u.id == v.id) = false := by
  have hperm : (idsOf (A ++ v :: B)).Perm (v.id :: (idsOf A ++ idsOf B)) := by
    rw [idsOf_append, idsOf_cons]
    exact List.perm_middle
  have hnd : (v.id :: (idsOf A ++ idsOf B)).Nodup := hperm.nodup_iff.1 h
  have hnotin : v.id ∉ idsOf A ++ idsOf B := (List.nodup_cons.1 hnd).1
  constructor
  · intro u hu
    rcases hc : (u.id == v.id) with _ | _
    · rfl
    · exfalso
      apply hnotin
      have : u.id = v.id := by simpa using hc
      exact List.mem_append.2 (Or.inl (this ▸ List.mem_map_of_mem _ hu))
  · intro u hu
    rcases hc : (u.id == v.id) with _ | _
    · rfl
    · exfalso
      apply hnotin
      have : u.id = v.id := by simpa using hc
      exact List.mem_append.2 (Or.inr (this ▸ List.mem_map_of_mem _ hu))

theorem removeConsumerViews_append_zero (h : Nat) (v : ViewInformation)
    (vs₂ : List ViewInformation) (hv : (v.id == h) = true)
    (hz : ((v.removeConsumer).2 == 0) = true) :
    ∀ vs₁, (∀ u ∈ vs₁, (u.id == h) = false) →
      removeConsumerViews (vs₁ ++ v :: vs₂) h = vs₁ ++ vs₂ := by
  intro vs₁
  induction vs₁ with
  | nil =>
    intro _
    rw [List.nil_append, removeConsumerViews, if_pos hv, if_pos hz, List.nil_append]
  | cons u rest ih =>
    intro hall
    have hu : (u.id == h) = false := hall u (List.mem_cons_self _ _)
    rw [List.cons_append, removeConsumerViews, if_neg (by simp [hu]),
      ih (fun w hw => hall w (List.mem_cons_of_mem _ hw)), List.cons_append]

theorem removeConsumerViews_append_pos (h : Nat) (v : ViewInformation)
    (vs₂ : List ViewInformation) (hv : (v.id == h) = true)
    (hz : ((v.removeConsumer).2 == 0) = false) :
    ∀ vs₁, (∀ u ∈ vs₁, (u.id == h) = false) →
      removeConsumerViews (vs₁ ++ v :: vs₂) h = vs₁ ++ (v.removeConsumer).1 :: vs₂ := by
  intro vs₁
  induction vs₁ with
  | nil =>
    intro _
    rw [List.nil_append, removeConsumerViews, if_pos hv, if_neg (by simp [hz]),
      List.nil_append]
  | cons u rest ih =>
    intro hall
    have hu : (u.id == h) = false := hall u (List.mem_cons_self _ _)
    rw [List.cons_append, removeConsumerViews, if_neg (by simp [hu]),
      ih (fun w hw => hall w (List.mem_cons_of_mem _ hw)), List.cons_append]

theorem removeConsumerMeasures_append (h : Nat) (m : Measure)
    (mi : MeasureInformation) (post : List (Measure × MeasureInformation))
    (hmi : (mi.views.any fun v => v.id == h) = true) :
    ∀ pre, (∀ p ∈ pre, (p.2.views.any fun v => v.id == h) = false) →
      removeConsumerMeasures (pre ++ (m, mi) :: post) h =
        pre ++ (m, ⟨removeConsumerViews mi.views h⟩) :: post := by
  intro pre
  induction pre with
  | nil =>
    intro _
    rw [List.nil_append, removeConsumerMeasures, if_pos hmi, List.nil_append]
  | cons q rest ih =>
    intro hall
    have hq : (q.2.views.any fun v => v.id == h) = false :=
      hall q (List.mem_cons_self _ _)
    obtain ⟨q1, q2⟩ := q
    rw [List.cons_append, removeConsumerMeasures, if_neg (by simp_all),
      ih (fun p hp => hall p (List.mem_cons_of_mem _ hp)), List.cons_append]

/-- C2: for a view with consumer count `n > 0`, `RemoveConsumer` decrements
the count and returns the post-decrement count `n - 1`; the manager unlinks
and destroys the view exactly when that returned count is zero, and leaves
it linked with count `n - 1` otherwise. -/
theorem claimC2_removeConsumer_unlinks_at_zero (s : StatsManager) (h : Nat)
    (v : ViewInformation) (hwf : idsWF s) (hfind : s.findView h = some v)
    (hpos : 0 < v.num_consumers) :
    (v.removeConsumer).2 = v.num_consumers - 1 ∧
    (v.num_consumers - 1 = 0 → (s.RemoveConsumer h).findView h = none) ∧
    (v.num_consumers - 1 ≠ 0 →
      (s.RemoveConsumer h).findView h =
        some { v with num_consumers := v.num_consumers - 1 }) := by
  have hvmem : v ∈ allViews s := List.mem_of_find?_eq_some hfind
  have hvid : v.id = h := by simpa using List.find?_some hfind
  obtain ⟨pre, m, mi, post, hms, hvmi⟩ :=
    exists_measure_of_mem_flat s.measures v hvmem
  obtain ⟨vs₁, vs₂, hmi⟩ := List.append_of_mem hvmi
  have hflat : allViews s = (flatViews pre ++ vs₁) ++ v :: (vs₂ ++ flatViews post) := by
    rw [allViews, hms, flatViews_append_middle]
    show flatViews pre ++ mi.views ++ flatViews post = _
    rw [hmi]
    simp [List.append_assoc]
  have hnd : (idsOf ((flatViews pre ++ vs₁) ++ v :: (vs₂ ++ flatViews post))).Nodup := by
    rw [← hflat]; exact hwf.1
  obtain ⟨hbefore, hafter⟩ := nodup_ids_split _ _ v hnd
  have hpreviews : ∀ p ∈ pre, (p.2.views.any fun u => u.id == h) = false := by
    intro p hp
    rcases hc : p.2.views.any fun u => u.id == h with _ | _
    · rfl
    · exfalso
      rcases List.any_eq_true.1 hc with ⟨u, hu, huid⟩
      have humem : u ∈ flatViews pre := mem_flatViews_of_mem hp hu
      have := hbefore u (List.mem_append.2 (Or.inl humem))
      rw [hvid] at this
      rw [this] at huid
      exact absurd huid (by simp)
  have hvs₁ : ∀ u ∈ vs₁, (u.id == h) = false := by
    intro u hu
    have := hbefore u (List.mem_append.2 (Or.inr hu))
    rw [hvid] at this
    exact this
  have hvs₂ : ∀ u ∈ vs₂, (u.id == h) = false := by
    intro u hu
    have := hafter u (List.mem_append.2 (Or.inl hu))
    rw [hvid] at this
    exact this
  have hpostviews : ∀ u ∈ flatViews post, (u.id == h) = false := by
    intro u hu
    have := hafter u (List.mem_append.2 (Or.inr hu))
    rw [hvid] at this
    exact this
  have hany : (mi.views.any fun u => u.id == h) = true := by
    rw [hmi]
    exact List.any_eq_true.2 ⟨v, List.mem_append.2 (Or.inr (List.mem_cons_self _ _)),
      by simp [hvid]⟩
  have hrm : (s.RemoveConsumer h).measures =
      pre ++ (m, ⟨removeConsumerViews mi.views h⟩) :: post := by
    show removeConsumerMeasures s.measures h = _
    rw [hms, removeConsumerMeasures_append h m mi post hany pre hpreviews]
  refine ⟨rfl, ?_, ?_⟩
  · intro hz
    have hzb : ((v.removeConsumer).2 == 0) = true := by
      show ((v.num_consumers - 1 : Int) == 0) = true
      simp [hz]
    have hviews : removeConsumerViews mi.views h = vs₁ ++ vs₂ := by
      rw [hmi]
      exact removeConsumerViews_append_zero h v vs₂ (by simp [hvid]) hzb vs₁ hvs₁
    apply findView_none
    intro u hu
    rw [allViews, hrm, flatViews_append_middle] at hu
    have hu2 : u ∈ flatViews pre ++ (vs₁ ++ vs₂) ++ flatViews post := by
      rw [show ((m, (⟨removeConsumerViews mi.views h⟩ : MeasureInformation)).2.views) =
        removeConsumerViews mi.views h from rfl, hviews] at hu
      exact hu
    have hfalse : (u.id == h) = false := by
      rcases List.mem_append.1 hu2 with h12 | hpost
      · rcases List.mem_append.1 h12 with hpre | hmid
        · have := hbefore u (List.mem_append.2 (Or.inl hpre))
          rw [hvid] at this
          exact this
        · rcases List.mem_append.1 hmid with h1 | h2
          · exact hvs₁ u h1
          · exact hvs₂ u h2
      · exact hpostviews u hpost
    simpa using hfalse
  · intro hz
    have hzb : ((v.removeConsumer).2 == 0) = false := by
      show ((v.num_consumers - 1 : Int) == 0) = false
      simp [hz]
    have hviews : removeConsumerViews mi.views h =
        vs₁ ++ (v.removeConsumer).1 :: vs₂ := by
      rw [hmi]
      exact removeConsumerViews_append_pos h v vs₂ (by simp [hvid]) hzb vs₁ hvs₁
    have hidseq : idsOf (allViews (s.RemoveConsumer h)) = idsOf (allViews s) := by
      rw [allViews, hrm, flatViews_append_middle, hflat]
      show idsOf (flatViews pre ++ removeConsumerViews mi.views h ++ flatViews post) = _
      rw [hviews]
      simp [idsOf, ViewInformation.removeConsumer, List.append_assoc]
    have hnd2 : (idsOf (allViews (s.RemoveConsumer h))).Nodup := by
      rw [hidseq]; exact hwf.1
    have hmem2 : (v.removeConsumer).1 ∈ allViews (s.RemoveConsumer h) := by
      rw [allViews, hrm, flatViews_append_middle]
      have hin : (v.removeConsumer).1 ∈
          (⟨removeConsumerViews mi.views h⟩ : MeasureInformation).views := by
        show (v.removeConsumer).1 ∈ removeConsumerViews mi.views h
        rw [hviews]
        exact List.mem_append.2 (Or.inr (List.mem_cons_self _ _))
      exact List.mem_append.2 (Or.inl (List.mem_append.2 (Or.inr hin)))
    have := findView_of_nodup (s.RemoveConsumer h) hnd2 (v.removeConsumer).1 hmem2
    rw [show (v.removeConsumer).1.id = h from hvid] at this
    exact this

/-- C2 witness: a view with two consumers, after one removal, stays linked
with count one. -/
theorem claimC2_removeConsumer_unlinks_at_zero_witness :
    ((⟨0, ⟨"a", "da", ⟨0, .intKind⟩, .sum, .cumulative, []⟩, 2, ⟨[]⟩⟩ :
        ViewInformation).removeConsumer).2 =
      (⟨0, ⟨"a", "da", ⟨0, .intKind⟩, .sum, .cumulative, []⟩, 2, ⟨[]⟩⟩ :
        ViewInformation).num_consumers - 1 ∧
    ((⟨0, ⟨"a", "da", ⟨0, .intKind⟩, .sum, .cumulative, []⟩, 2, ⟨[]⟩⟩ :
        ViewInformation).num_consumers - 1 = 0 →
      (StatsManager.RemoveConsumer
        ⟨[(⟨0, .intKind⟩,
            ⟨[⟨0, ⟨"a", "da", ⟨0, .intKind⟩, .sum, .cumulative, []⟩, 2, ⟨[]⟩⟩]⟩)], 1⟩
        0).findView 0 = none) ∧
    ((⟨0, ⟨"a", "da", ⟨0, .intKind⟩, .sum, .cumulative, []⟩, 2, ⟨[]⟩⟩ :
        ViewInformation).num_consumers - 1 ≠ 0 →
      (StatsManager.RemoveConsumer
        ⟨[(⟨0, .intKind⟩,
            ⟨[⟨0, ⟨"a", "da", ⟨0, .intKind⟩, .sum, .cumulative, []⟩, 2, ⟨[]⟩⟩]⟩)], 1⟩
        0).findView 0 =
      some { (⟨0, ⟨"a", "da", ⟨0, .intKind⟩, .sum, .cumulative, []⟩, 2, ⟨[]⟩⟩ :
          ViewInformation) with
        num_consumers := (⟨0, ⟨"a", "da", ⟨0, .intKind⟩, .sum, .cumulative, []⟩, 2, ⟨[]⟩⟩ :
          ViewInformation).num_consumers - 1 }) :=
  claimC2_removeConsumer_unlinks_at_zero
    ⟨[(⟨0, .intKind⟩,
        ⟨[⟨0, ⟨"a", "da", ⟨0, .intKind⟩, .sum, .cumulative, []⟩, 2, ⟨[]⟩⟩]⟩)], 1⟩
    0 ⟨0, ⟨"a", "da", ⟨0, .intKind⟩, .sum, .cumulative, []⟩, 2, ⟨[]⟩⟩
    (by decide) (by decide) (by decide)

/-! ### Reference symmetry: N adds followed by N removes -/

/-- C3: starting from a state with no view matching a definition, `N`
`AddConsumer` calls for it followed by `N` `RemoveConsumer` calls on the
returned handle leave the view unlinked, and a subsequent `AddConsumer`
with a structurally matching definition creates a fresh view with consumer
count 1 under a new handle instead of finding the old one. -/
theorem claimC3_reference_symmetry (s : StatsManager) (d d' : ViewDescriptor)
    (N : Nat) (hwf : idsWF s) (hreg : s.registered d.measure = true)
    (hmiss : ∀ v ∈ allViews s, v.Matches d = false)
    (hN : 0 < N) (hd' : structurallyMatches d d' = true) :
    (s.AddConsumer d).1 = some s.nextId ∧
    (iterRemove (iterAdd s d N) s.nextId N).findView s.nextId = none ∧
    ((iterRemove (iterAdd s d N) s.nextId N).AddConsumer d').1 =
      some (iterRemove (iterAdd s d N) s.nextId N).nextId ∧
    (iterRemove (iterAdd s d N) s.nextId N).nextId ≠ s.nextId ∧
    ((iterRemove (iterAdd s d N) s.nextId N).AddConsumer d').2.findView
        (iterRemove (iterAdd s d N) s.nextId N).nextId =
      some (newViewInformation (iterRemove (iterAdd s d N) s.nextId N).nextId d') := by
  obtain ⟨pre, mi, post, hsplit, hpre⟩ := exists_split_of_registered hreg
  obtain ⟨M, rfl⟩ : ∃ M, N = M + 1 := ⟨N - 1, (Nat.succ_pred_eq_of_pos hN).symm⟩
  have hsub : ∀ v ∈ mi.views, v ∈ allViews s := by
    intro v hv
    rw [allViews, hsplit, flatViews_append_middle]
    exact List.mem_append.2 (Or.inl (List.mem_append.2 (Or.inr hv)))
  have hsubpre : ∀ v ∈ flatViews pre, v ∈ allViews s := by
    intro v hv
    rw [allViews, hsplit, flatViews_append_middle]
    exact List.mem_append.2 (Or.inl (List.mem_append.2 (Or.inl hv)))
  have hsubpost : ∀ v ∈ flatViews post, v ∈ allViews s := by
    intro v hv
    rw [allViews, hsplit, flatViews_append_middle]
    exact List.mem_append.2 (Or.inr hv)
  have hmiNoMatch : ∀ u ∈ mi.views, u.Matches d = false := fun u hu => hmiss u (hsub u hu)
  have hfnone : mi.views.find? (fun w => w.Matches d) = none :=
    List.find?_eq_none.2 (fun u hu => by rw [hmiNoMatch u hu]; simp)
  have hmiNoId : ∀ u ∈ mi.views, (u.id == s.nextId) = false := by
    intro u hu
    have := hwf.2 u (hsub u hu)
    simp [Nat.ne_of_lt this]
  have hpreNoId : ∀ p ∈ pre, (p.2.views.any fun u => u.id == s.nextId) = false := by
    intro p hp
    rcases hc : p.2.views.any fun u => u.id == s.nextId with _ | _
    · rfl
    · exfalso
      rcases List.any_eq_true.1 hc with ⟨u, hu, huid⟩
      have hlt := hwf.2 u (hsubpre u (mem_flatViews_of_mem hp hu))
      have : u.id = s.nextId := by simpa using huid
      omega
  -- one hit step of AddConsumer on the canonical state
  have haddStep : ∀ (c : Int) (n : Nat),
      (⟨pre ++ (d.measure, ⟨mi.views ++ ⟨s.nextId, d, c, ⟨[]⟩⟩ :: []⟩) :: post, n⟩ :
        StatsManager).AddConsumer d =
      (some s.nextId,
        ⟨pre ++ (d.measure, ⟨mi.views ++ ⟨s.nextId, d, c + 1, ⟨[]⟩⟩ :: []⟩) :: post,
          n + 1⟩) := by
    intro c n
    have base : (⟨pre ++ (d.measure, ⟨mi.views ++ ⟨s.nextId, d, c, ⟨[]⟩⟩ :: []⟩) :: post, n⟩ :
        StatsManager).AddConsumer d =
      ((addConsumerMeasures
          (pre ++ (d.measure, ⟨mi.views ++ ⟨s.nextId, d, c, ⟨[]⟩⟩ :: []⟩) :: post) d n).1,
        ⟨(addConsumerMeasures
          (pre ++ (d.measure, ⟨mi.views ++ ⟨s.nextId, d, c, ⟨[]⟩⟩ :: []⟩) :: post) d n).2,
          n + 1⟩) := rfl
    have h1 := addConsumerMeasures_append d n
      (⟨mi.views ++ ⟨s.nextId, d, c, ⟨[]⟩⟩ :: []⟩ : MeasureInformation) post pre hpre
    have h2 := addConsumerViews_append_match d n
      (⟨s.nextId, d, c, ⟨[]⟩⟩ : ViewInformation) []
      (structurallyMatches_refl d) mi.views hmiNoMatch
    rw [base, h1,
      show ((⟨mi.views ++ ⟨s.nextId, d, c, ⟨[]⟩⟩ :: []⟩ : MeasureInformation)).views =
        mi.views ++ (⟨s.nextId, d, c, ⟨[]⟩⟩ : ViewInformation) :: [] from rfl, h2]
    rfl
  -- the state after k+1 adds
  have hiterAdd : ∀ k : Nat, iterAdd s d (k + 1) =
      ⟨pre ++ (d.measure, ⟨mi.views ++ ⟨s.nextId, d, (k : Int) + 1, ⟨[]⟩⟩ :: []⟩) :: post,
        s.nextId + (k + 1)⟩ := by
    intro k
    induction k with
    | zero =>
      show (s.AddConsumer d).2 = _
      rw [AddConsumer_eq, hsplit,
        addConsumerMeasures_append d s.nextId mi post pre hpre]
      rw [show (addConsumerViews mi.views d s.nextId) =
        (s.nextId, mi.views ++ [newViewInformation s.nextId d]) from
        addConsumerViews_of_find_eq_none d s.nextId mi.views hfnone]
      show (⟨_, _⟩ : StatsManager) = _
      rw [show ((0 : Nat) : Int) + 1 = 1 from by norm_num]
      rfl
    | succ k ih =>
      show ((iterAdd s d (k + 1)).AddConsumer d).2 = _
      rw [ih, haddStep ((k : Int) + 1) (s.nextId + (k + 1))]
      rw [show ((k : Int) + 1) + 1 = ((k + 1 : Nat) : Int) + 1 from by push_cast; ring]
      rw [Nat.add_assoc]
  -- one decrement step of RemoveConsumer on the canonical state (count > 1)
  have hremStep : ∀ (c : Int) (n : Nat), 1 < c →
      (⟨pre ++ (d.measure, ⟨mi.views ++ ⟨s.nextId, d, c, ⟨[]⟩⟩ :: []⟩) :: post, n⟩ :
        StatsManager).RemoveConsumer s.nextId =
      ⟨pre ++ (d.measure, ⟨mi.views ++ ⟨s.nextId, d, c - 1, ⟨[]⟩⟩ :: []⟩) :: post, n⟩ := by
    intro c n hc
    have h1 := removeConsumerMeasures_append s.nextId d.measure
      (⟨mi.views ++ ⟨s.nextId, d, c, ⟨[]⟩⟩ :: []⟩ : MeasureInformation) post
      (by
        refine List.any_eq_true.2
          ⟨(⟨s.nextId, d, c, ⟨[]⟩⟩ : ViewInformation), ?_, by simp⟩
        exact List.mem_append.2 (Or.inr (List.mem_cons_self _ _)))
      pre hpreNoId
    have h2 := removeConsumerViews_append_pos s.nextId
      (⟨s.nextId, d, c, ⟨[]⟩⟩ : ViewInformation) [] (by simp)
      (by
        show ((c - 1 : Int) == 0) = false
        simp only [beq_eq_false_iff_ne, ne_eq]
        omega)
      mi.views hmiNoId
    show (⟨removeConsumerMeasures _ s.nextId, n⟩ : StatsManager) = _
    rw [h1,
      show ((⟨mi.views ++ ⟨s.nextId, d, c, ⟨[]⟩⟩ :: []⟩ : MeasureInformation)).views =
        mi.views ++ (⟨s.nextId, d, c, ⟨[]⟩⟩ : ViewInformation) :: [] from rfl, h2]
    rfl
  -- the final decrement (count 1): the view is unlinked
  have hremLast : ∀ n : Nat,
      (⟨pre ++ (d.measure, ⟨mi.views ++ ⟨s.nextId, d, 1, ⟨[]⟩⟩ :: []⟩) :: post, n⟩ :
        StatsManager).RemoveConsumer s.nextId =
      ⟨pre ++ (d.measure, ⟨mi.views⟩) :: post, n⟩ := by
    intro n
    have h1 := removeConsumerMeasures_append s.nextId d.measure
      (⟨mi.views ++ ⟨s.nextId, d, 1, ⟨[]⟩⟩ :: []⟩ : MeasureInformation) post
      (by
        refine List.any_eq_true.2
          ⟨(⟨s.nextId, d, 1, ⟨[]⟩⟩ : ViewInformation), ?_, by simp⟩
        exact List.mem_append.2 (Or.inr (List.mem_cons_self _ _)))
      pre hpreNoId
    have h2 := removeConsumerViews_append_zero s.nextId
      (⟨s.nextId, d, 1, ⟨[]⟩⟩ : ViewInformation) [] (by simp)
      (by simp [ViewInformation.removeConsumer])
      mi.views hmiNoId
    show (⟨removeConsumerMeasures _ s.nextId, n⟩ : StatsManager) = _
    rw [h1,
      show ((⟨mi.views ++ ⟨s.nextId, d, 1, ⟨[]⟩⟩ :: []⟩ : MeasureInformation)).views =
        mi.views ++ (⟨s.nextId, d, 1, ⟨[]⟩⟩ : ViewInformation) :: [] from rfl, h2]
    rw [List.append_nil]
  -- the state after j removes, j ≤ M
  have hiterRem : ∀ j : Nat, j ≤ M →
      iterRemove (iterAdd s d (M + 1)) s.nextId j =
      ⟨pre ++ (d.measure, ⟨mi.views ++ ⟨s.nextId, d, ((M - j : Nat) : Int) + 1, ⟨[]⟩⟩ :: []⟩)
        :: post, s.nextId + (M + 1)⟩ := by
    intro j
    induction j with
    | zero =>
      intro _
      show iterAdd s d (M + 1) = _
      rw [hiterAdd M, Nat.sub_zero]
    | succ j ih =>
      intro hj
      show (iterRemove (iterAdd s d (M + 1)) s.nextId j).RemoveConsumer s.nextId = _
      rw [ih (Nat.le_of_succ_le hj),
        hremStep (((M - j : Nat) : Int) + 1) (s.nextId + (M + 1)) (by
          have : 1 ≤ M - j := by omega
          have : (1 : Int) ≤ ((M - j : Nat) : Int) := by exact_mod_cast this
          omega)]
      rw [show ((M - j : Nat) : Int) + 1 - 1 = ((M - (j + 1) : Nat) : Int) + 1 from by
        have : M - j = (M - (j + 1)) + 1 := by omega
        rw [this]
        push_cast
        ring]
  -- the final state after M+1 removes
  have hfinal : iterRemove (iterAdd s d (M + 1)) s.nextId (M + 1) =
      ⟨pre ++ (d.measure, ⟨mi.views⟩) :: post, s.nextId + (M + 1)⟩ := by
    show (iterRemove (iterAdd s d (M + 1)) s.nextId M).RemoveConsumer s.nextId = _
    rw [hiterRem M (le_refl M)]
    rw [show ((M - M : Nat) : Int) + 1 = 1 from by simp]
    exact hremLast _
  have hfinalViews : allViews (iterRemove (iterAdd s d (M + 1)) s.nextId (M + 1)) =
      flatViews pre ++ mi.views ++ flatViews post := by
    rw [hfinal, allViews]
    exact flatViews_append_middle pre (d.measure, ⟨mi.views⟩) post
  have hsViews : allViews s = flatViews pre ++ mi.views ++ flatViews post := by
    rw [allViews, hsplit]
    exact flatViews_append_middle pre (d.measure, mi) post
  have hfinalNext : (iterRemove (iterAdd s d (M + 1)) s.nextId (M + 1)).nextId =
      s.nextId + (M + 1) := by
    rw [hfinal]
  have hmeas2 : d'.measure = d.measure :=
    ((structurallyMatches_iff d d').1 hd').1.symm
  have hpre2 : ∀ p ∈ pre, (p.1 == d'.measure) = false := by
    rw [hmeas2]; exact hpre
  have hfnone2 : mi.views.find? (fun w => w.Matches d') = none :=
    List.find?_eq_none.2 (fun u hu => by
      rw [Matches_congr u hd', hmiNoMatch u hu]; simp)
  have hAC : (iterRemove (iterAdd s d (M + 1)) s.nextId (M + 1)).AddConsumer d' =
      (some (s.nextId + (M + 1)),
        ⟨pre ++ (d'.measure,
            ⟨mi.views ++ newViewInformation (s.nextId + (M + 1)) d' :: []⟩) :: post,
          s.nextId + (M + 1) + 1⟩) := by
    rw [hfinal]
    have base : (⟨pre ++ (d.measure, ⟨mi.views⟩) :: post, s.nextId + (M + 1)⟩ :
        StatsManager).AddConsumer d' =
      ((addConsumerMeasures (pre ++ (d.measure, ⟨mi.views⟩) :: post) d'
          (s.nextId + (M + 1))).1,
        ⟨(addConsumerMeasures (pre ++ (d.measure, ⟨mi.views⟩) :: post) d'
          (s.nextId + (M + 1))).2, s.nextId + (M + 1) + 1⟩) := rfl
    have hkey : pre ++ (d.measure, (⟨mi.views⟩ : MeasureInformation)) :: post =
        pre ++ (d'.measure, (⟨mi.views⟩ : MeasureInformation)) :: post := by
      rw [hmeas2]
    have h1 := addConsumerMeasures_append d' (s.nextId + (M + 1))
      (⟨mi.views⟩ : MeasureInformation) post pre hpre2
    have h2 := addConsumerViews_of_find_eq_none d' (s.nextId + (M + 1)) mi.views hfnone2
    rw [base, hkey, h1,
      show ((⟨mi.views⟩ : MeasureInformation)).views = mi.views from rfl, h2]
  refine ⟨?_, ?_, ?_, ?_, ?_⟩
  · rw [AddConsumer_eq, hsplit,
      addConsumerMeasures_append d s.nextId mi post pre hpre,
      show (addConsumerViews mi.views d s.nextId) =
        (s.nextId, mi.views ++ [newViewInformation s.nextId d]) from
        addConsumerViews_of_find_eq_none d s.nextId mi.views hfnone]
  · apply findView_none
    intro u hu
    rw [hfinalViews, ← hsViews] at hu
    exact Nat.ne_of_lt (hwf.2 u hu)
  · rw [congrArg Prod.fst hAC, hfinalNext]
  · rw [hfinalNext]
    omega
  · rw [congrArg Prod.snd hAC, hfinalNext]
    have hnd : (idsOf (allViews (⟨pre ++ (d'.measure,
        ⟨mi.views ++ newViewInformation (s.nextId + (M + 1)) d' :: []⟩) :: post,
        s.nextId + (M + 1) + 1⟩ : StatsManager))).Nodup := by
      have hveq : allViews (⟨pre ++ (d'.measure,
          ⟨mi.views ++ newViewInformation (s.nextId + (M + 1)) d' :: []⟩) :: post,
          s.nextId + (M + 1) + 1⟩ : StatsManager) =
          (flatViews pre ++ mi.views) ++
            newViewInformation (s.nextId + (M + 1)) d' :: flatViews post := by
        rw [allViews, flatViews_append_middle]
        show flatViews pre ++ (mi.views ++ newViewInformation (s.nextId + (M + 1)) d' :: [])
            ++ flatViews post = _
        simp [List.append_assoc]
      rw [hveq]
      have hperm : (idsOf ((flatViews pre ++ mi.views) ++
          newViewInformation (s.nextId + (M + 1)) d' :: flatViews post)).Perm
          ((s.nextId + (M + 1)) ::
            (idsOf (flatViews pre ++ mi.views) ++ idsOf (flatViews post))) := by
        rw [idsOf_append, idsOf_cons]
        exact List.perm_middle
      refine hperm.nodup_iff.2 (List.nodup_cons.2 ⟨?_, ?_⟩)
      · intro hc
        rcases List.mem_map.1 (by
          rw [← idsOf_append] at hc
          exact hc) with ⟨u, hu, huid⟩
        have humem : u ∈ allViews s := by
          rw [hsViews]
          exact hu
        have := hwf.2 u humem
        omega
      · have heq2 : idsOf (flatViews pre ++ mi.views) ++ idsOf (flatViews post) =
            idsOf (allViews s) := by
          rw [← idsOf_append, hsViews]
        rw [heq2]
        exact hwf.1
    have hmem : newViewInformation (s.nextId + (M + 1)) d' ∈
        allViews (⟨pre ++ (d'.measure,
          ⟨mi.views ++ newViewInformation (s.nextId + (M + 1)) d' :: []⟩) :: post,
          s.nextId + (M + 1) + 1⟩ : StatsManager) := by
      rw [allViews, flatViews_append_middle]
      have hin : newViewInformation (s.nextId + (M + 1)) d' ∈
          (⟨mi.views ++ newViewInformation (s.nextId + (M + 1)) d' :: []⟩ :
            MeasureInformation).views :=
        List.mem_append.2 (Or.inr (List.mem_cons_self _ _))
      exact List.mem_append.2 (Or.inl (List.mem_append.2 (Or.inr hin)))
    exact findView_of_nodup _ hnd _ hmem

/-- C3 witness: with measure 0 registered and no views, one add followed
by one remove unlinks the view, and a matching request then creates a
fresh view under a new handle. -/
theorem claimC3_reference_symmetry_witness :
    (StatsManager.AddConsumer ⟨[(⟨0, .intKind⟩, ⟨[]⟩)], 0⟩
        ⟨"a", "da", ⟨0, .intKind⟩, .sum, .cumulative, ["k"]⟩).1 = some 0 ∧
    (iterRemove (iterAdd ⟨[(⟨0, .intKind⟩, ⟨[]⟩)], 0⟩
        ⟨"a", "da", ⟨0, .intKind⟩, .sum, .cumulative, ["k"]⟩ 1) 0 1).findView 0 = none ∧
    ((iterRemove (iterAdd ⟨[(⟨0, .intKind⟩, ⟨[]⟩)], 0⟩
        ⟨"a", "da", ⟨0, .intKind⟩, .sum, .cumulative, ["k"]⟩ 1) 0 1).AddConsumer
        ⟨"b", "db", ⟨0, .intKind⟩, .sum, .cumulative, ["k"]⟩).1 =
      some (iterRemove (iterAdd ⟨[(⟨0, .intKind⟩, ⟨[]⟩)], 0⟩
        ⟨"a", "da", ⟨0, .intKind⟩, .sum, .cumulative, ["k"]⟩ 1) 0 1).nextId ∧
    (iterRemove (iterAdd ⟨[(⟨0, .intKind⟩, ⟨[]⟩)], 0⟩
        ⟨"a", "da", ⟨0, .intKind⟩, .sum, .cumulative, ["k"]⟩ 1) 0 1).nextId ≠ 0 ∧
    ((iterRemove (iterAdd ⟨[(⟨0, .intKind⟩, ⟨[]⟩)], 0⟩
        ⟨"a", "da", ⟨0, .intKind⟩, .sum, .cumulative, ["k"]⟩ 1) 0 1).AddConsumer
        ⟨"b", "db", ⟨0, .intKind⟩, .sum, .cumulative, ["k"]⟩).2.findView
        (iterRemove (iterAdd ⟨[(⟨0, .intKind⟩, ⟨[]⟩)], 0⟩
          ⟨"a", "da", ⟨0, .intKind⟩, .sum, .cumulative, ["k"]⟩ 1) 0 1).nextId =
      some (newViewInformation
        (iterRemove (iterAdd ⟨[(⟨0, .intKind⟩, ⟨[]⟩)], 0⟩
          ⟨"a", "da", ⟨0, .intKind⟩, .sum, .cumulative, ["k"]⟩ 1) 0 1).nextId
        ⟨"b", "db", ⟨0, .intKind⟩, .sum, .cumulative, ["k"]⟩) :=
  claimC3_reference_symmetry ⟨[(⟨0, .intKind⟩, ⟨[]⟩)], 0⟩
    ⟨"a", "da", ⟨0, .intKind⟩, .sum, .cumulative, ["k"]⟩
    ⟨"b", "db", ⟨0, .intKind⟩, .sum, .cumulative, ["k"]⟩ 1
    (by decide) (by decide) (by decide) (by decide) (by decide)

end OpencensusStats
